import Mathlib

/-!
Verification development for the VGGT export and evaluation core.

Part 1 embeds `colmap_reader.py`: sparse-point visibility computation
(`compute_point_visibility`) and the points3D table serialization
(`write_points3d_txt`).  Exact rational arithmetic stands in for the
script's floating point.

Part 2 embeds `test_co3d.py`: pairwise relative-pose error metrics
(rotation / translation angles), the two AUC implementations, and the
sequence-processing policy.  Real arithmetic stands in for floating
point there; the NaN-producing partial operations (square root of a
negative, arccos outside [-1, 1]) are modelled explicitly so that the
NaN-replacement branch of the code is visible in the model.
-/

/-! ## Part 1: colmap_reader.py -/

/-- A 3D point with rational coordinates. -/
abbrev Vec3Q := Fin 3 → ℚ

/-- Per-image camera data consumed by `compute_point_visibility`: the
3x4 extrinsic `[R | t]`, the 3x3 intrinsic `K`, and the image shape
`(height, width)`. -/
structure CamView where
  extrinsic : Matrix (Fin 3) (Fin 4) ℚ
  intrinsic : Matrix (Fin 3) (Fin 3) ℚ
  height : ℚ
  width : ℚ

/-- A 2D observation `(x, y, point_idx)` appended to an image's
observation list. -/
structure Obs where
  x : ℚ
  y : ℚ
  pid : ℕ
  deriving DecidableEq

/-- Default camera used only to total `List.getD` lookups. -/
def defaultCam : CamView := ⟨0, 0, 0, 0⟩

/-- Default point used only to total `List.getD` lookups. -/
def defaultPt : Vec3Q := fun _ => 0

/-- The camera-frame point `point_cam = extrinsic[:3,:3] . p + extrinsic[:3,3]`. -/
def camPoint (cam : CamView) (p : Vec3Q) : Fin 3 → ℚ :=
  fun i => (∑ j : Fin 3, cam.extrinsic i (Fin.castSucc j) * p j) + cam.extrinsic i 3

/-- The homogeneous projection `point_homo = intrinsic . (point_cam / point_cam[2])`. -/
def projHomo (cam : CamView) (p : Vec3Q) : Fin 3 → ℚ :=
  fun i => ∑ j : Fin 3, cam.intrinsic i j * (camPoint cam p j / camPoint cam p 2)

/-- The body of the per-point, per-image loop of `compute_point_visibility`:
`none` when the point is rejected (`point_cam[2] <= 0`, or the projected
pixel falls outside `0 <= x < width and 0 <= y < height`), otherwise the
projected pixel `(x, y)`. -/
def visibleXY (cam : CamView) (p : Vec3Q) : Option (ℚ × ℚ) :=
  if camPoint cam p 2 ≤ 0 then none
  else if 0 ≤ projHomo cam p 0 ∧ projHomo cam p 0 < cam.width ∧
      0 ≤ projHomo cam p 1 ∧ projHomo cam p 1 < cam.height
    then some (projHomo cam p 0, projHomo cam p 1) else none

/-- The observation that point number `pidx` at position `pt` contributes
to an image, when visible. -/
def obsOf (pidx : ℕ) (pt : Vec3Q) (cam : CamView) : Option Obs :=
  (visibleXY cam pt).map fun xy => ⟨xy.1, xy.2, pidx⟩

/-- Inner loop of `compute_point_visibility`: iterate over the remaining
cameras (current image index `c`), appending `(x, y, point_idx)` to the
image's observation list and `(img_idx + 1, len(image_points[img_idx]) - 1)`
to the point's track on visibility. -/
def innerLoop (pidx : ℕ) (pt : Vec3Q) :
    List CamView → ℕ → List (List Obs) → List (List Obs) × List (ℕ × ℕ)
  | [], _, ipts => (ipts, [])
  | cam :: rest, c, ipts =>
    match obsOf pidx pt cam with
    | none => innerLoop pidx pt rest (c + 1) ipts
    | some o =>
      let row := ipts.getD c []
      let ipts' := ipts.set c (row ++ [o])
      let res := innerLoop pidx pt rest (c + 1) ipts'
      (res.1, (c + 1, row.length) :: res.2)

/-- Outer loop of `compute_point_visibility`: iterate over the points
(current point index `pidx`), threading the per-image observation lists
and collecting each point's track. -/
def outerLoop (cams : List CamView) :
    List Vec3Q → ℕ → List (List Obs) → List (List Obs) × List (List (ℕ × ℕ))
  | [], _, ipts => (ipts, [])
  | pt :: pts, pidx, ipts =>
    let r := innerLoop pidx pt cams 0 ipts
    let rest := outerLoop cams pts (pidx + 1) r.1
    (rest.1, r.2 :: rest.2)

/-- Embedding of `compute_point_visibility(points3d, extrinsics,
intrinsics, image_shapes)`: returns `(image_points, point_tracks)`. -/
def compute_point_visibility (points : List Vec3Q) (cams : List CamView) :
    List (List Obs) × List (List (ℕ × ℕ)) :=
  outerLoop cams points 0 (List.replicate cams.length [])

/-- Structural description of one point's effect on the observation
lists: each camera's row gains the point's observation when visible. -/
def updRows (pidx : ℕ) (pt : Vec3Q) : List CamView → List (List Obs) → List (List Obs)
  | [], rows => rows
  | _ :: _, [] => []
  | cam :: cams, row :: rows => (row ++ (obsOf pidx pt cam).toList) :: updRows pidx pt cams rows

/-- Structural description of one point's track, given the lengths of the
observation rows at the time the point is processed. -/
def trackAt (pt : Vec3Q) : List CamView → List ℕ → ℕ → List (ℕ × ℕ)
  | [], _, _ => []
  | _ :: _, [], _ => []
  | cam :: cams, len :: lens, c =>
    if (visibleXY cam pt).isSome then (c + 1, len) :: trackAt pt cams lens (c + 1)
    else trackAt pt cams lens (c + 1)

/-- Observation rows after a list of enumerated points is processed. -/
def finalRows (cams : List CamView) : List (ℕ × Vec3Q) → List (List Obs) → List (List Obs)
  | [], rows => rows
  | q :: qs, rows => finalRows cams qs (updRows q.1 q.2 cams rows)

/-- Tracks of a list of enumerated points, threading the row state. -/
def allTracks (cams : List CamView) : List (ℕ × Vec3Q) → List (List Obs) → List (List (ℕ × ℕ))
  | [], _ => []
  | q :: qs, rows =>
    trackAt q.2 cams (rows.map List.length) 0 :: allTracks cams qs (updRows q.1 q.2 cams rows)

/-- Number of points of a list visible in a camera. -/
def countVisPts (cam : CamView) (pts : List Vec3Q) : ℕ :=
  pts.countP (fun pt => (visibleXY cam pt).isSome)

/-- Python `int(...)` on a rational: truncation toward zero. -/
def pyInt (q : ℚ) : ℤ := if 0 ≤ q then ⌊q⌋ else ⌈q⌉

/-- One serialized row of the points3D table: `POINT3D_ID X Y Z R G B
ERROR TRACK[]`. -/
structure P3DRow where
  id : ℕ
  X : ℚ
  Y : ℚ
  Z : ℚ
  r : ℤ
  g : ℤ
  b : ℤ
  err : ℚ
  track : List (ℕ × ℕ)
  deriving DecidableEq

/-- Loop body of `write_points3d_txt`: a point with an empty track is
skipped; otherwise the row is keyed by the point's original extraction
index `point_idx`, carries the color scaled by 255 and truncated to an
integer, the placeholder reprojection error `1.0`, and the track. -/
def p3dRowOf (q : ℕ × (Vec3Q × (Vec3Q × List (ℕ × ℕ)))) : Option P3DRow :=
  if q.2.2.2 = [] then none
  else some ⟨q.1, q.2.1 0, q.2.1 1, q.2.1 2,
    pyInt (q.2.2.1 0 * 255), pyInt (q.2.2.1 1 * 255), pyInt (q.2.2.1 2 * 255),
    1, q.2.2.2⟩

/-- Embedding of `write_points3d_txt(points3d, point_colors, point_tracks,
output_dir)`: the header's declared point count (`len(points3d)`)
together with the list of serialized body rows, obtained by enumerating
`zip(points3d, point_colors, point_tracks)` and keeping the points with a
non-empty track. -/
def write_points3d_txt (points3d : List Vec3Q) (point_colors : List Vec3Q)
    (point_tracks : List (List (ℕ × ℕ))) : ℕ × List P3DRow :=
  (points3d.length,
    ((points3d.zip (point_colors.zip point_tracks)).enum).filterMap p3dRowOf)

/-- A concrete camera (identity extrinsic and intrinsic, 10x10 image)
used to exercise the visibility test on concrete inputs. -/
def unitCamQ : CamView :=
  ⟨!![1, 0, 0, 0; 0, 1, 0, 0; 0, 0, 1, 0], 1, 10, 10⟩

/-- A concrete point with all coordinates 1, in front of `unitCamQ`. -/
def onesPtQ : Vec3Q := fun _ => 1

/-! ## Part 2: test_co3d.py -/

/-- The clamp floor `eps = 1e-15` used by the angle computations. -/
noncomputable def eps0 : ℝ := 1 / 10 ^ 15

/-- The `default_err = 1e6` sentinel of `compare_translation_by_angle`. -/
noncomputable def sentinel : ℝ := 10 ^ 6

/-- Embedding of `build_pair_index(N)` (batch size 1): all pairs `(i, j)`
with `i < j` in lexicographic order, as produced by `torch.combinations`. -/
def build_pair_index (n : ℕ) : List (ℕ × ℕ) :=
  (((List.range n).flatMap fun i => (List.range n).map fun j => (i, j)).filter
    fun ij => ij.1 < ij.2)

/-- Quaternion-level core of `rotation_angle`: with `loss_q =
clamp(1 - (q_pred . q_gt)^2, min=eps)`, the error in degrees is
`arccos(1 - 2 loss_q) * 180 / pi`. -/
noncomputable def rotation_angle_q (q_gt q_pred : Fin 4 → ℝ) : ℝ :=
  Real.arccos (1 - 2 * max eps0 (1 - (∑ i, q_pred i * q_gt i) ^ 2)) * 180 / Real.pi

/-- Embedding of `rotation_angle(rot_gt, rot_pred)`, parametrized by the
external quaternion conversion `mat_to_quat` (from `vggt.utils.rotation`,
not part of this repository's sources). -/
noncomputable def rotation_angle (mtq : Matrix (Fin 3) (Fin 3) ℝ → Fin 4 → ℝ)
    (rot_gt rot_pred : Matrix (Fin 3) (Fin 3) ℝ) : ℝ :=
  rotation_angle_q (mtq rot_gt) (mtq rot_pred)

open Classical in
/-- Embedding of one row of `compare_translation_by_angle(t_gt, t)`:
both vectors are normalized by `norm + eps`, `loss_t = clamp_min(1 -
dot^2, eps)`, and `err_t = acos(sqrt(1 - loss_t))`.  The final line of
the code replaces NaN/Inf entries by `default_err = 1e6`; NaN would
arise exactly when the square root receives a negative argument or the
arccos an argument above 1, so the model routes those cases to the
sentinel. -/
noncomputable def compare_translation_by_angle (t_gt t : Fin 3 → ℝ) : ℝ :=
  let tn := Real.sqrt (∑ i, t i ^ 2)
  let tu := fun i => t i / (tn + eps0)
  let tgn := Real.sqrt (∑ i, t_gt i ^ 2)
  let tgu := fun i => t_gt i / (tgn + eps0)
  let loss := max eps0 (1 - (∑ i, tu i * tgu i) ^ 2)
  if 1 - loss < 0 ∨ 1 < Real.sqrt (1 - loss) then sentinel
  else Real.arccos (Real.sqrt (1 - loss))

open Classical in
/-- Embedding of one row of `translation_angle(tvec_gt, tvec_pred,
ambiguity)`: radians to degrees, then direction-ambiguity folding
`min(err, |180 - err|)` when `ambiguity` is set. -/
noncomputable def translation_angle (t_gt t : Fin 3 → ℝ) (ambiguity : Bool) : ℝ :=
  let d := compare_translation_by_angle t_gt t * 180 / Real.pi
  if ambiguity then min d |180 - d| else d

/-- Modelled from the spec: `closed_form_inverse_se3` lives in
`vggt.utils.geometry`, which is not among this repository's source
files.  The spec fixes it as the closed-form SE(3) inverse
`R' = transpose(R)`, `t' = -R' . t`, with homogeneous bottom row. -/
noncomputable def closed_form_inverse_se3 (M : Matrix (Fin 4) (Fin 4) ℝ) :
    Matrix (Fin 4) (Fin 4) ℝ :=
  !![M 0 0, M 1 0, M 2 0, -(M 0 0 * M 0 3 + M 1 0 * M 1 3 + M 2 0 * M 2 3);
     M 0 1, M 1 1, M 2 1, -(M 0 1 * M 0 3 + M 1 1 * M 1 3 + M 2 1 * M 2 3);
     M 0 2, M 1 2, M 2 2, -(M 0 2 * M 0 3 + M 1 2 * M 1 3 + M 2 2 * M 2 3);
     0, 0, 0, 1]

/-- The `[:3, :3]` rotation block of a 4x4 pose. -/
noncomputable def topLeft3 (M : Matrix (Fin 4) (Fin 4) ℝ) : Matrix (Fin 3) (Fin 3) ℝ :=
  Matrix.of fun i j => M (Fin.castSucc i) (Fin.castSucc j)

/-- The `[:3, 3]` translation column of a 4x4 pose. -/
noncomputable def transCol (M : Matrix (Fin 4) (Fin 4) ℝ) : Fin 3 → ℝ :=
  fun i => M (Fin.castSucc i) 3

/-- Embedding of `se3_to_relative_pose_error(pred_se3, gt_se3,
num_frames)`, parametrized by the external `mat_to_quat`: relative poses
`inverse(pose_i) . pose_j` over all pairs, then per-pair rotation and
translation errors in degrees. -/
noncomputable def se3_to_relative_pose_error
    (mtq : Matrix (Fin 3) (Fin 3) ℝ → Fin 4 → ℝ)
    (pred_se3 gt_se3 : ℕ → Matrix (Fin 4) (Fin 4) ℝ) (num_frames : ℕ) :
    List ℝ × List ℝ :=
  let pairs := build_pair_index num_frames
  let relG := pairs.map fun ij => closed_form_inverse_se3 (gt_se3 ij.1) * gt_se3 ij.2
  let relP := pairs.map fun ij => closed_form_inverse_se3 (pred_se3 ij.1) * pred_se3 ij.2
  (List.zipWith (fun g p => rotation_angle mtq (topLeft3 g) (topLeft3 p)) relG relP,
   List.zipWith (fun g p => translation_angle (transCol g) (transCol p) true) relG relP)

/-- Embedding of `align_to_first_camera(camera_poses)`: right-multiply
every pose by the closed-form inverse of pose 0. -/
noncomputable def align_to_first_camera (poses : ℕ → Matrix (Fin 4) (Fin 4) ℝ) :
    ℕ → Matrix (Fin 4) (Fin 4) ℝ :=
  fun i => poses i * closed_form_inverse_se3 (poses 0)

/-- Embedding of `convert_pt3d_RT_to_opencv(Rot, Trans)`: negate the
first two columns of `Rot` and the first two entries of `Trans`,
transpose the rotation, and stack `[rot | trans]`. -/
noncomputable def convert_pt3d_RT_to_opencv (Rot : Matrix (Fin 3) (Fin 3) ℝ)
    (Trans : Fin 3 → ℝ) : Matrix (Fin 3) (Fin 4) ℝ :=
  Matrix.of fun i j =>
    let s : ℝ := if (i : ℕ) < 2 then -1 else 1
    if h : (j : ℕ) < 3 then s * Rot ⟨j, h⟩ i else s * Trans i

/-- The `torch.cat((extri, add_row), dim=1)` step: extend a 3x4
extrinsic to a homogeneous 4x4 pose with bottom row `0 0 0 1`. -/
noncomputable def toSE3 (E : Matrix (Fin 3) (Fin 4) ℝ) : Matrix (Fin 4) (Fin 4) ℝ :=
  Matrix.of fun i j => if h : (i : ℕ) < 3 then E ⟨i, h⟩ j else if (j : ℕ) = 3 then 1 else 0

/-- One ground-truth annotation record of a sequence: the Pytorch3D
rotation `R` and translation `T` of a frame. -/
structure FrameAnno where
  T : Fin 3 → ℝ
  Rm : Matrix (Fin 3) (Fin 3) ℝ

open Classical in
/-- Embedding of the pose-error core of `process_sequence`: reject a
sequence shorter than `min_num_images` or containing an annotation with
`T[0] + T[1] + T[2] > 1e5` (returning no errors); otherwise build the
ground-truth poses of the sampled frames `ids`, re-anchor them to the
first camera and compute the pairwise errors against the (unmodified)
predicted poses.  The model inference producing `pred_extrinsic` and the
random frame sampling producing `ids` are external inputs. -/
noncomputable def process_sequence (mtq : Matrix (Fin 3) (Fin 3) ℝ → Fin 4 → ℝ)
    (pred_extrinsic : ℕ → Matrix (Fin 3) (Fin 4) ℝ) (seq_data : List FrameAnno)
    (ids : List ℕ) (min_num_images num_frames : ℕ) : Option (List ℝ × List ℝ) :=
  if seq_data.length < min_num_images then none
  else if ∃ d ∈ seq_data, (10 ^ 5 : ℝ) < d.T 0 + d.T 1 + d.T 2 then none
  else
    let gt_se3 : ℕ → Matrix (Fin 4) (Fin 4) ℝ := fun i =>
      let d := seq_data.getD (ids.getD i 0) ⟨fun _ => 0, 0⟩
      toSE3 (convert_pt3d_RT_to_opencv d.Rm d.T)
    let pred_se3 : ℕ → Matrix (Fin 4) (Fin 4) ℝ := fun i => toSE3 (pred_extrinsic i)
    some (se3_to_relative_pose_error mtq pred_se3 (align_to_first_camera gt_se3) num_frames)

/-- The per-category accumulation of `main`: extend the rotation and
translation error lists with a sequence's results when they are not
`None`, skip the sequence otherwise. -/
def collectErrors (results : List (Option (List ℝ × List ℝ))) : List ℝ × List ℝ :=
  results.foldl
    (fun acc o => match o with
      | none => acc
      | some rt => (acc.1 ++ rt.1, acc.2 ++ rt.2))
    ([], [])

open Classical in
/-- Count of the elements of a list satisfying a predicate (used to
model the histogram bin counts over real-valued errors). -/
noncomputable def countIf (xs : List ℝ) (P : ℝ → Prop) : ℕ :=
  (xs.map fun x => if P x then 1 else 0).sum

/-- Bin `i` of `np.histogram(xs, bins=np.arange(m + 1))`: unit bins with
integer edges `0, 1, ..., m`; every bin is half-open except the last,
which is closed. -/
def binNp (m i : ℕ) (x : ℝ) : Prop :=
  (i : ℝ) ≤ x ∧ (if i + 1 = m then x ≤ (m : ℝ) else x < (i : ℝ) + 1)

/-- Bin `i` of `torch.histc(xs, bins, min=lo, max=hi)`: `bins` bins of
width `(hi - lo) / bins`; values outside `[lo, hi]` are ignored, and
`hi` itself lands in the last bin. -/
def binHc (bins : ℕ) (lo hi : ℝ) (i : ℕ) (x : ℝ) : Prop :=
  lo + (i : ℝ) * ((hi - lo) / (bins : ℝ)) ≤ x ∧
    (if i + 1 = bins then x ≤ hi else x < lo + ((i : ℝ) + 1) * ((hi - lo) / (bins : ℝ)))

/-- Embedding of `np.histogram(xs, bins=np.arange(m + 1))`. -/
noncomputable def histogram_np (xs : List ℝ) (m : ℕ) : List ℕ :=
  (List.range m).map fun i => countIf xs (binNp m i)

/-- Embedding of `torch.histc(xs, bins, min=lo, max=hi)`. -/
noncomputable def histc (xs : List ℝ) (bins : ℕ) (lo hi : ℝ) : List ℕ :=
  (List.range bins).map fun i => countIf xs (binHc bins lo hi i)

/-- Prefix sums, as produced by `np.cumsum` / `torch.cumsum`. -/
noncomputable def cumsum (l : List ℝ) : List ℝ :=
  (List.range l.length).map fun i => (l.take (i + 1)).sum

/-- Arithmetic mean of a list (`np.mean` / `torch.mean`). -/
noncomputable def meanList (l : List ℝ) : ℝ := l.sum / l.length

/-- Embedding of `calculate_auc_np(r_error, t_error, max_threshold)`:
integer-degree histogram of the per-pair `max(r_error, t_error)`,
normalized by the pair count; the AUC is the mean of the cumulative sum
of the normalized histogram. -/
noncomputable def calculate_auc_np (r_error t_error : List ℝ) (max_threshold : ℕ) : ℝ :=
  let max_errors := List.zipWith max r_error t_error
  let normalized := (histogram_np max_errors max_threshold).map
    fun c : ℕ => (c : ℝ) / (max_errors.length : ℝ)
  meanList (cumsum normalized)

/-- Embedding of `calculate_auc(r_error, t_error, max_threshold)` (the
torch implementation): histogram via `torch.histc` with
`max_threshold + 1` bins over `[0, max_threshold]`, then the same
normalize / cumulative-sum / mean steps. -/
noncomputable def calculate_auc (r_error t_error : List ℝ) (max_threshold : ℕ) : ℝ :=
  let max_errors := List.zipWith max r_error t_error
  let normalized := (histc max_errors (max_threshold + 1) 0 max_threshold).map
    fun c : ℕ => (c : ℝ) / (max_errors.length : ℝ)
  meanList (cumsum normalized)

/-- A translation-only SE(3) pose (unit translation along z), used to
exercise the pose-error pipeline on concrete inputs. -/
noncomputable def tzMat : Matrix (Fin 4) (Fin 4) ℝ :=
  !![1, 0, 0, 0; 0, 1, 0, 0; 0, 0, 1, 1; 0, 0, 0, 1]

/-- A constant unit-quaternion stand-in for `mat_to_quat`, used to
exercise the pose-error pipeline on concrete inputs. -/
noncomputable def mtqW : Matrix (Fin 3) (Fin 3) ℝ → Fin 4 → ℝ :=
  fun _ => ![1, 0, 0, 0]

/-- A concrete two-frame pose trajectory: identity, then a unit
translation along z. -/
noncomputable def gtW : ℕ → Matrix (Fin 4) (Fin 4) ℝ :=
  fun i => if i = 0 then 1 else tzMat

/-! ## Lemmas: points3D serialization (C1) -/

lemma zip_getElem_some {α β : Type} :
    ∀ (a : List α) (b : List β) (j : ℕ) (x : α × β),
      (a.zip b)[j]? = some x → a[j]? = some x.1 ∧ b[j]? = some x.2 := by
  intro a
  induction a with
  | nil => intro b j x h; simp at h
  | cons y ys ih =>
    intro b j x h
    cases b with
    | nil => simp at h
    | cons z zs =>
      cases j with
      | zero =>
        rw [List.zip_cons_cons] at h
        simp only [List.getElem?_cons_zero, Option.some.injEq] at h
        subst h
        exact ⟨by simp, by simp⟩
      | succ j =>
        rw [List.zip_cons_cons] at h
        simp only [List.getElem?_cons_succ] at h ⊢
        exact ih zs j x h

lemma p3dRows_mem :
    ∀ (zs : List (Vec3Q × (Vec3Q × List (ℕ × ℕ)))) (n : ℕ) (r : P3DRow),
      r ∈ (List.enumFrom n zs).filterMap p3dRowOf →
      n ≤ r.id ∧ r.id - n < zs.length ∧
        ∃ z, zs[r.id - n]? = some z ∧ z.2.2 ≠ [] ∧ r.track = z.2.2 := by
  intro zs
  induction zs with
  | nil => intro n r h; simp at h
  | cons z zs ih =>
    intro n r h
    rw [List.enumFrom_cons, List.filterMap_cons] at h
    by_cases hz : z.2.2 = []
    · rw [show p3dRowOf (n, z) = none by simp [p3dRowOf, hz]] at h
      obtain ⟨h1, h2, w, hw1, hw2, hw3⟩ := ih (n + 1) r h
      refine ⟨by omega, by simp; omega, w, ?_, hw2, hw3⟩
      rw [show r.id - n = (r.id - (n + 1)) + 1 by omega]
      simpa using hw1
    · rw [show p3dRowOf (n, z) =
          some ⟨n, z.1 0, z.1 1, z.1 2, pyInt (z.2.1 0 * 255), pyInt (z.2.1 1 * 255),
            pyInt (z.2.1 2 * 255), 1, z.2.2⟩ by simp [p3dRowOf, hz]] at h
      rcases List.mem_cons.mp h with h | h
      · subst h
        exact ⟨le_refl _, by simp, z, by simp, hz, rfl⟩
      · obtain ⟨h1, h2, w, hw1, hw2, hw3⟩ := ih (n + 1) r h
        refine ⟨by omega, by simp; omega, w, ?_, hw2, hw3⟩
        rw [show r.id - n = (r.id - (n + 1)) + 1 by omega]
        simpa using hw1

lemma p3dRows_count :
    ∀ (zs : List (Vec3Q × (Vec3Q × List (ℕ × ℕ)))) (n i : ℕ),
      ((List.enumFrom n zs).filterMap p3dRowOf).countP (fun r => r.id == i) =
        if n ≤ i ∧ i - n < zs.length ∧
            (zs.getD (i - n) (defaultPt, (defaultPt, []))).2.2 ≠ [] then 1 else 0 := by
  intro zs
  induction zs with
  | nil => intro n i; simp
  | cons z zs ih =>
    intro n i
    rw [List.enumFrom_cons, List.filterMap_cons]
    by_cases hz : z.2.2 = []
    · rw [show p3dRowOf (n, z) = none by simp [p3dRowOf, hz]]
      rw [ih (n + 1) i]
      rcases Nat.lt_trichotomy n i with hlt | heq | hgt
      · have hidx : i - n = (i - (n + 1)) + 1 := by omega
        rw [hidx]
        simp only [List.getD_cons_succ, List.length_cons]
        refine if_congr ?_ rfl rfl
        constructor
        · rintro ⟨-, h2, h3⟩; exact ⟨by omega, by omega, h3⟩
        · rintro ⟨-, h2, h3⟩; exact ⟨by omega, by omega, h3⟩
      · subst heq
        rw [if_neg (by rintro ⟨h1, -, -⟩; omega)]
        simp only [Nat.sub_self, List.getD_cons_zero]
        rw [if_neg (by rintro ⟨-, -, h3⟩; exact h3 hz)]
      · rw [if_neg (by rintro ⟨h1, -, -⟩; omega),
          if_neg (by rintro ⟨h1, -, -⟩; omega)]
    · obtain ⟨row, hrow, hrowid⟩ :
          ∃ row, p3dRowOf (n, z) = some row ∧ row.id = n :=
        ⟨⟨n, z.1 0, z.1 1, z.1 2, pyInt (z.2.1 0 * 255), pyInt (z.2.1 1 * 255),
          pyInt (z.2.1 2 * 255), 1, z.2.2⟩, by simp [p3dRowOf, hz], rfl⟩
      rw [hrow, List.countP_cons, ih (n + 1) i]
      rcases Nat.lt_trichotomy n i with hlt | heq | hgt
      · have hbeq : (row.id == i) = false := by
          simp only [beq_eq_false_iff_ne, ne_eq, hrowid]
          omega
        simp only [hbeq, Bool.false_eq_true, if_false, Nat.add_zero]
        have hidx : i - n = (i - (n + 1)) + 1 := by omega
        rw [hidx]
        simp only [List.getD_cons_succ, List.length_cons]
        refine if_congr ?_ rfl rfl
        constructor
        · rintro ⟨-, h2, h3⟩; exact ⟨by omega, by omega, h3⟩
        · rintro ⟨-, h2, h3⟩; exact ⟨by omega, by omega, h3⟩
      · subst heq
        have hbeq : (row.id == n) = true := by simp [hrowid]
        simp only [hbeq, if_true]
        rw [if_neg (by rintro ⟨h1, -, -⟩; omega)]
        simp only [Nat.sub_self, List.getD_cons_zero, List.length_cons]
        rw [if_pos ⟨le_refl n, Nat.succ_pos _, hz⟩]
      · have hbeq : (row.id == i) = false := by
          simp only [beq_eq_false_iff_ne, ne_eq, hrowid]
          omega
        simp only [hbeq, Bool.false_eq_true, if_false, Nat.add_zero]
        rw [if_neg (by rintro ⟨h1, -, -⟩; omega),
          if_neg (by rintro ⟨h1, -, -⟩; omega)]

/-- C1: for every exported point set, the serialized points3D table's
header declares the pre-filter (extracted) point count `len(points3d)`,
while the body contains exactly one row per point whose track is
non-empty (a point with an empty track is never written), each row keyed
by its original extraction index; consequently the declared count is at
least — and may exceed — the number of written rows. -/
theorem c1_points3d_header_vs_rows (P C : List Vec3Q) (T : List (List (ℕ × ℕ)))
    (hC : C.length = P.length) (hT : T.length = P.length) :
    (write_points3d_txt P C T).1 = P.length ∧
    (∀ r ∈ (write_points3d_txt P C T).2, r.track ≠ [] ∧ T[r.id]? = some r.track) ∧
    (∀ i, i < P.length →
      ((write_points3d_txt P C T).2.countP (fun r => r.id == i)) =
        if T.getD i [] = [] then 0 else 1) ∧
    (write_points3d_txt P C T).2.length ≤ (write_points3d_txt P C T).1 := by
  have hzs : (P.zip (C.zip T)).length = P.length := by
    simp [hC, hT]
  refine ⟨rfl, ?_, ?_, ?_⟩
  · intro r hr
    have hmem := p3dRows_mem (P.zip (C.zip T)) 0 r (by simpa [write_points3d_txt, List.enum] using hr)
    obtain ⟨-, -, z, hz1, hz2, hz3⟩ := hmem
    simp only [Nat.sub_zero] at hz1
    obtain ⟨-, hz4⟩ := zip_getElem_some _ _ _ _ hz1
    obtain ⟨-, hz5⟩ := zip_getElem_some _ _ _ _ hz4
    exact ⟨hz3 ▸ hz2, by rw [hz5, hz3]⟩
  · intro i hi
    have hcnt := p3dRows_count (P.zip (C.zip T)) 0 i
    simp only [Nat.sub_zero] at hcnt
    have hid : i < (P.zip (C.zip T)).length := by omega
    obtain ⟨z, hz⟩ : ∃ z, (P.zip (C.zip T))[i]? = some z :=
      ⟨_, List.getElem?_eq_getElem hid⟩
    obtain ⟨-, hz4⟩ := zip_getElem_some _ _ _ _ hz
    obtain ⟨-, hz5⟩ := zip_getElem_some _ _ _ _ hz4
    have hgetD : ((P.zip (C.zip T)).getD i (defaultPt, (defaultPt, []))).2.2 = T.getD i [] := by
      rw [List.getD_eq_getElem?_getD, List.getD_eq_getElem?_getD, hz, hz5]
      rfl
    rw [show (write_points3d_txt P C T).2 =
        (List.enumFrom 0 (P.zip (C.zip T))).filterMap p3dRowOf by rfl]
    rw [hcnt]
    by_cases hT0 : T.getD i [] = []
    · rw [if_neg ?_, if_pos hT0]
      rintro ⟨-, -, h3⟩
      exact h3 (hgetD.trans hT0)
    · rw [if_pos ⟨Nat.zero_le _, hid, fun h => hT0 (hgetD.symm.trans h)⟩, if_neg hT0]
  · calc (write_points3d_txt P C T).2.length
        ≤ ((P.zip (C.zip T)).enum).length := List.length_filterMap_le _ _
      _ = P.length := by simpa using hzs

theorem c1_points3d_header_vs_rows_witness :
    ([defaultPt, defaultPt] : List Vec3Q).length = ([defaultPt, defaultPt] : List Vec3Q).length ∧
    ([[(1, 0)], []] : List (List (ℕ × ℕ))).length = ([defaultPt, defaultPt] : List Vec3Q).length ∧
    (write_points3d_txt [defaultPt, defaultPt] [defaultPt, defaultPt] [[(1, 0)], []]).1 = 2 :=
  ⟨rfl, rfl, (c1_points3d_header_vs_rows [defaultPt, defaultPt] [defaultPt, defaultPt]
    [[(1, 0)], []] rfl rfl).1⟩

/-! ## Lemmas: point visibility loops (C2, C3) -/

lemma set_append_len {α : Type} :
    ∀ (pre : List α) (x : α) (rest : List α) (v : α),
      (pre ++ x :: rest).set pre.length v = pre ++ v :: rest := by
  intro pre
  induction pre with
  | nil => intro x rest v; rfl
  | cons y ys ih =>
    intro x rest v
    simp [ih x rest v]

lemma getD_append_len {α : Type} :
    ∀ (pre : List α) (x : α) (rest : List α) (d : α),
      (pre ++ x :: rest).getD pre.length d = x := by
  intro pre
  induction pre with
  | nil => intro x rest d; rfl
  | cons y ys ih =>
    intro x rest d
    simpa using ih x rest d

lemma obsOf_isSome (pidx : ℕ) (pt : Vec3Q) (cam : CamView) :
    (obsOf pidx pt cam).isSome = (visibleXY cam pt).isSome := by
  rw [obsOf]
  cases visibleXY cam pt <;> simp

lemma obsOf_pid {pidx : ℕ} {pt : Vec3Q} {cam : CamView} {o : Obs}
    (h : obsOf pidx pt cam = some o) : o.pid = pidx := by
  rw [obsOf] at h
  rcases Option.map_eq_some'.mp h with ⟨xy, -, hxy⟩
  rw [← hxy]

lemma innerLoop_eq (pidx : ℕ) (pt : Vec3Q) :
    ∀ (cams : List CamView) (pre cur : List (List Obs)),
      cams.length ≤ cur.length →
      innerLoop pidx pt cams pre.length (pre ++ cur) =
        (pre ++ updRows pidx pt cams cur,
         trackAt pt cams (cur.map List.length) pre.length) := by
  intro cams
  induction cams with
  | nil =>
    intro pre cur h
    simp [innerLoop, updRows, trackAt]
  | cons cam cams ih =>
    intro pre cur h
    cases cur with
    | nil => simp at h
    | cons row cur =>
      have hlen : cams.length ≤ cur.length := by simpa using h
      rcases h0 : obsOf pidx pt cam with _ | o
      · have hv : visibleXY cam pt = none := by
          rw [obsOf] at h0
          exact Option.map_eq_none'.mp h0
        have step : innerLoop pidx pt (cam :: cams) pre.length (pre ++ row :: cur) =
            innerLoop pidx pt cams (pre.length + 1) (pre ++ row :: cur) := by
          simp only [innerLoop, h0]
        rw [step]
        have h2 := ih (pre ++ [row]) cur hlen
        rw [show (pre ++ [row]) ++ cur = pre ++ row :: cur by simp] at h2
        rw [show (pre ++ [row]).length = pre.length + 1 by simp] at h2
        rw [h2]
        simp [updRows, trackAt, h0, hv]
      · have hv : (visibleXY cam pt).isSome = true := by
          rw [← obsOf_isSome pidx pt cam, h0]
          rfl
        have step : innerLoop pidx pt (cam :: cams) pre.length (pre ++ row :: cur) =
            ((innerLoop pidx pt cams (pre.length + 1) (pre ++ (row ++ [o]) :: cur)).1,
              (pre.length + 1, row.length) ::
                (innerLoop pidx pt cams (pre.length + 1) (pre ++ (row ++ [o]) :: cur)).2) := by
          simp only [innerLoop, h0, getD_append_len, set_append_len]
        rw [step]
        have h2 := ih (pre ++ [row ++ [o]]) cur hlen
        rw [show (pre ++ [row ++ [o]]) ++ cur = pre ++ (row ++ [o]) :: cur by simp] at h2
        rw [show (pre ++ [row ++ [o]]).length = pre.length + 1 by simp] at h2
        rw [h2]
        simp [updRows, trackAt, h0, hv]

lemma updRows_length (pidx : ℕ) (pt : Vec3Q) :
    ∀ (cams : List CamView) (rows : List (List Obs)),
      (updRows pidx pt cams rows).length = rows.length := by
  intro cams
  induction cams with
  | nil => intro rows; rfl
  | cons cam cams ih =>
    intro rows
    cases rows with
    | nil => rfl
    | cons row rows => simp [updRows, ih]

lemma updRows_getD (pidx : ℕ) (pt : Vec3Q) :
    ∀ (cams : List CamView) (rows : List (List Obs)) (c : ℕ),
      c < cams.length → c < rows.length →
      (updRows pidx pt cams rows).getD c [] =
        rows.getD c [] ++ (obsOf pidx pt (cams.getD c defaultCam)).toList := by
  intro cams
  induction cams with
  | nil => intro rows c hc _; simp at hc
  | cons cam cams ih =>
    intro rows c hc hr
    cases rows with
    | nil => simp at hr
    | cons row rows =>
      cases c with
      | zero => simp [updRows]
      | succ c =>
        simp only [updRows, List.getD_cons_succ]
        exact ih rows c (by simpa using hc) (by simpa using hr)

lemma finalRows_length (cams : List CamView) :
    ∀ (qs : List (ℕ × Vec3Q)) (rows : List (List Obs)),
      (finalRows cams qs rows).length = rows.length := by
  intro qs
  induction qs with
  | nil => intro rows; rfl
  | cons q qs ih =>
    intro rows
    rw [finalRows, ih, updRows_length]

lemma finalRows_getD (cams : List CamView) :
    ∀ (qs : List (ℕ × Vec3Q)) (rows : List (List Obs)) (c : ℕ),
      rows.length = cams.length → c < cams.length →
      (finalRows cams qs rows).getD c [] =
        rows.getD c [] ++ qs.filterMap (fun q => obsOf q.1 q.2 (cams.getD c defaultCam)) := by
  intro qs
  induction qs with
  | nil => intro rows c _ _; simp [finalRows]
  | cons q qs ih =>
    intro rows c hlen hc
    rw [finalRows, ih (updRows q.1 q.2 cams rows) c (by rw [updRows_length]; exact hlen) hc]
    rw [updRows_getD q.1 q.2 cams rows c hc (by omega)]
    rw [List.filterMap_cons]
    rcases h0 : obsOf q.1 q.2 (cams.getD c defaultCam) with _ | o <;> simp

lemma outerLoop_eq (cams : List CamView) :
    ∀ (pts : List Vec3Q) (n : ℕ) (ipts : List (List Obs)),
      ipts.length = cams.length →
      outerLoop cams pts n ipts =
        (finalRows cams (List.enumFrom n pts) ipts,
         allTracks cams (List.enumFrom n pts) ipts) := by
  intro pts
  induction pts with
  | nil => intro n ipts _; simp [outerLoop, finalRows, allTracks]
  | cons pt pts ih =>
    intro n ipts h
    have hinner := innerLoop_eq n pt cams ([] : List (List Obs)) ipts (le_of_eq h.symm)
    simp only [List.nil_append, List.length_nil] at hinner
    rw [outerLoop, hinner]
    rw [ih (n + 1) (updRows n pt cams ipts) (by rw [updRows_length]; exact h)]
    rfl

lemma allTracks_getElem (cams : List CamView) :
    ∀ (qs : List (ℕ × Vec3Q)) (rows : List (List Obs)) (i : ℕ),
      (allTracks cams qs rows)[i]? = (qs[i]?).map
        (fun q => trackAt q.2 cams
          ((finalRows cams (qs.take i) rows).map List.length) 0) := by
  intro qs
  induction qs with
  | nil => intro rows i; simp [allTracks]
  | cons q qs ih =>
    intro rows i
    cases i with
    | zero => simp [allTracks, finalRows]
    | succ i =>
      simp only [allTracks, List.getElem?_cons_succ, List.take_succ_cons]
      rw [ih (updRows q.1 q.2 cams rows) i]
      rfl

lemma trackAt_fst_lb (pt : Vec3Q) :
    ∀ (cams : List CamView) (lens : List ℕ) (c0 : ℕ) (e : ℕ × ℕ),
      e ∈ trackAt pt cams lens c0 → c0 + 1 ≤ e.1 := by
  intro cams
  induction cams with
  | nil => intro lens c0 e h; simp [trackAt] at h
  | cons cam cams ih =>
    intro lens c0 e h
    cases lens with
    | nil => simp [trackAt] at h
    | cons len lens =>
      simp only [trackAt] at h
      by_cases hv : (visibleXY cam pt).isSome = true
      · rw [if_pos hv] at h
        rcases List.mem_cons.mp h with h | h
        · subst h; exact le_refl _
        · have := ih lens (c0 + 1) e h
          omega
      · rw [if_neg hv] at h
        have := ih lens (c0 + 1) e h
        omega

lemma trackAt_nodup (pt : Vec3Q) :
    ∀ (cams : List CamView) (lens : List ℕ) (c0 : ℕ),
      (trackAt pt cams lens c0).Nodup := by
  intro cams
  induction cams with
  | nil => intro lens c0; simp [trackAt]
  | cons cam cams ih =>
    intro lens c0
    cases lens with
    | nil => simp [trackAt]
    | cons len lens =>
      simp only [trackAt]
      by_cases hv : (visibleXY cam pt).isSome = true
      · rw [if_pos hv]
        refine List.nodup_cons.mpr ⟨?_, ih lens (c0 + 1)⟩
        intro hmem
        have h2 : (c0 + 1) + 1 ≤ (c0 + 1, len).1 :=
          trackAt_fst_lb pt cams lens (c0 + 1) (c0 + 1, len) hmem
        simp at h2
      · rw [if_neg hv]
        exact ih lens (c0 + 1)

lemma trackAt_mem (pt : Vec3Q) :
    ∀ (cams : List CamView) (lens : List ℕ) (c0 c k : ℕ),
      lens.length = cams.length →
      ((c + 1, k) ∈ trackAt pt cams lens c0 ↔
        (c0 ≤ c ∧ c - c0 < cams.length ∧
          (visibleXY (cams.getD (c - c0) defaultCam) pt).isSome = true ∧
          k = lens.getD (c - c0) 0)) := by
  intro cams
  induction cams with
  | nil =>
    intro lens c0 c k h
    simp only [trackAt, List.not_mem_nil, false_iff, List.length_nil]
    rintro ⟨-, h2, -⟩
    omega
  | cons cam cams ih =>
    intro lens c0 c k h
    cases lens with
    | nil => simp at h
    | cons len lens =>
      have hl : lens.length = cams.length := by simpa using h
      simp only [trackAt]
      by_cases hv : (visibleXY cam pt).isSome = true
      · rw [if_pos hv, List.mem_cons, ih lens (c0 + 1) c k hl]
        constructor
        · rintro (heq | ⟨h1, h2, h3, h4⟩)
          · rw [Prod.mk.injEq] at heq
            obtain ⟨e1, e2⟩ := heq
            have hc1 : c = c0 := by omega
            subst hc1
            refine ⟨le_refl _, by simp, ?_, ?_⟩
            · rw [Nat.sub_self]
              simpa using hv
            · rw [Nat.sub_self]
              simpa using e2
          · refine ⟨by omega, ?_, ?_, ?_⟩
            · simp only [List.length_cons]; omega
            · rw [show c - c0 = (c - (c0 + 1)) + 1 by omega]
              simpa using h3
            · rw [show c - c0 = (c - (c0 + 1)) + 1 by omega]
              simpa using h4
        · rintro ⟨h1, h2, h3, h4⟩
          rcases Nat.eq_or_lt_of_le h1 with heq | hlt
          · subst heq
            left
            rw [Nat.sub_self] at h4
            simp only [List.getD_cons_zero] at h4
            rw [h4]
          · right
            refine ⟨by omega, ?_, ?_, ?_⟩
            · simp only [List.length_cons] at h2; omega
            · have hi : c - c0 = (c - (c0 + 1)) + 1 := by omega
              rw [hi] at h3
              simpa using h3
            · have hi : c - c0 = (c - (c0 + 1)) + 1 := by omega
              rw [hi] at h4
              simpa using h4
      · rw [if_neg hv, ih lens (c0 + 1) c k hl]
        constructor
        · rintro ⟨h1, h2, h3, h4⟩
          refine ⟨by omega, ?_, ?_, ?_⟩
          · simp only [List.length_cons]; omega
          · rw [show c - c0 = (c - (c0 + 1)) + 1 by omega]
            simpa using h3
          · rw [show c - c0 = (c - (c0 + 1)) + 1 by omega]
            simpa using h4
        · rintro ⟨h1, h2, h3, h4⟩
          rcases Nat.eq_or_lt_of_le h1 with heq | hlt
          · subst heq
            rw [Nat.sub_self] at h3
            simp only [List.getD_cons_zero] at h3
            exact absurd h3 hv
          · refine ⟨by omega, ?_, ?_, ?_⟩
            · simp only [List.length_cons] at h2; omega
            · have hi : c - c0 = (c - (c0 + 1)) + 1 := by omega
              rw [hi] at h3
              simpa using h3
            · have hi : c - c0 = (c - (c0 + 1)) + 1 := by omega
              rw [hi] at h4
              simpa using h4

lemma countVisPts_cons_pos {cam : CamView} {pt : Vec3Q}
    (hv : (visibleXY cam pt).isSome = true) (l : List Vec3Q) :
    countVisPts cam (pt :: l) = countVisPts cam l + 1 := by
  simp [countVisPts, List.countP_cons, hv]

lemma countVisPts_cons_neg {cam : CamView} {pt : Vec3Q}
    (hv : (visibleXY cam pt).isSome = false) (l : List Vec3Q) :
    countVisPts cam (pt :: l) = countVisPts cam l := by
  simp [countVisPts, List.countP_cons, hv]

lemma filterMap_obs_pid_lb (pts : List Vec3Q) (n : ℕ) (cam : CamView) (o : Obs)
    (h : o ∈ (List.enumFrom n pts).filterMap (fun q => obsOf q.1 q.2 cam)) :
    n ≤ o.pid := by
  rcases List.mem_filterMap.mp h with ⟨q, hq, hf⟩
  have hpid := obsOf_pid hf
  obtain ⟨i, x⟩ := q
  have hle : n ≤ i := (List.mk_mem_enumFrom_iff_le_and_getElem?_sub.mp hq).1
  rw [hpid]
  exact hle

lemma row_get_pid :
    ∀ (pts : List Vec3Q) (cam : CamView) (n p k : ℕ),
      (∃ o : Obs,
        ((List.enumFrom n pts).filterMap (fun q => obsOf q.1 q.2 cam))[k]? = some o ∧
          o.pid = n + p)
      ↔ (p < pts.length ∧ (visibleXY cam (pts.getD p defaultPt)).isSome = true ∧
          k = countVisPts cam (pts.take p)) := by
  intro pts
  induction pts with
  | nil =>
    intro cam n p k
    simp
  | cons pt pts ih =>
    intro cam n p k
    simp only [List.enumFrom_cons, List.filterMap_cons]
    rcases h0 : obsOf n pt cam with _ | o'
    · have hv : (visibleXY cam pt).isSome = false := by
        rw [← obsOf_isSome n pt cam, h0]
        rfl
      cases p with
      | zero =>
        constructor
        · rintro ⟨o, hk, hpid⟩
          exfalso
          have hmem := List.getElem?_mem hk
          have := filterMap_obs_pid_lb pts (n + 1) cam o hmem
          omega
        · rintro ⟨-, h2, -⟩
          rw [List.getD_cons_zero] at h2
          exact absurd h2 (by simp [hv])
      | succ p =>
        rw [show n + (p + 1) = (n + 1) + p by omega, ih cam (n + 1) p k]
        rw [List.take_succ_cons, countVisPts_cons_neg hv]
        simp only [List.length_cons, List.getD_cons_succ]
        constructor <;> rintro ⟨h1, h2, h3⟩ <;> exact ⟨by omega, h2, h3⟩
    · have hv : (visibleXY cam pt).isSome = true := by
        rw [← obsOf_isSome n pt cam, h0]
        rfl
      have hpid' : o'.pid = n := obsOf_pid h0
      cases p with
      | zero =>
        cases k with
        | zero =>
          constructor
          · intro _
            refine ⟨by simp, by rw [List.getD_cons_zero]; exact hv, by simp [countVisPts]⟩
          · intro _
            exact ⟨o', by simp, by omega⟩
        | succ k =>
          simp only [List.getElem?_cons_succ]
          constructor
          · rintro ⟨o, hk, hpid⟩
            exfalso
            have hmem := List.getElem?_mem hk
            have := filterMap_obs_pid_lb pts (n + 1) cam o hmem
            omega
          · rintro ⟨-, -, h3⟩
            rw [List.take_zero] at h3
            simp [countVisPts] at h3
      | succ p =>
        cases k with
        | zero =>
          simp only [List.getElem?_cons_zero]
          constructor
          · rintro ⟨o, ho, hpid⟩
            exfalso
            rw [Option.some.injEq] at ho
            subst ho
            omega
          · rintro ⟨-, -, h3⟩
            exfalso
            rw [List.take_succ_cons, countVisPts_cons_pos hv] at h3
            omega
        | succ k =>
          simp only [List.getElem?_cons_succ]
          rw [show n + (p + 1) = (n + 1) + p by omega, ih cam (n + 1) p k]
          rw [List.take_succ_cons, countVisPts_cons_pos hv]
          simp only [List.length_cons, List.getD_cons_succ]
          constructor <;> rintro ⟨h1, h2, h3⟩ <;> exact ⟨by omega, h2, by omega⟩

lemma visibleXY_isSome_iff (cam : CamView) (pt : Vec3Q) :
    (visibleXY cam pt).isSome = true ↔
      (0 < camPoint cam pt 2 ∧
        0 ≤ projHomo cam pt 0 ∧ projHomo cam pt 0 < cam.width ∧
        0 ≤ projHomo cam pt 1 ∧ projHomo cam pt 1 < cam.height) := by
  rw [visibleXY]
  by_cases h1 : camPoint cam pt 2 ≤ 0
  · rw [if_pos h1]
    simp only [Option.isSome_none, Bool.false_eq_true, false_iff]
    rintro ⟨hz, -⟩
    linarith
  · rw [if_neg h1]
    by_cases h2 : 0 ≤ projHomo cam pt 0 ∧ projHomo cam pt 0 < cam.width ∧
        0 ≤ projHomo cam pt 1 ∧ projHomo cam pt 1 < cam.height
    · rw [if_pos h2]
      simp only [Option.isSome_some, true_iff]
      exact ⟨lt_of_not_le h1, h2.1, h2.2.1, h2.2.2.1, h2.2.2.2⟩
    · rw [if_neg h2]
      simp only [Option.isSome_none, Bool.false_eq_true, false_iff]
      rintro ⟨-, hb1, hb2, hb3, hb4⟩
      exact h2 ⟨hb1, hb2, hb3, hb4⟩

lemma getD_replicate_nil (n c : ℕ) :
    (List.replicate n ([] : List Obs)).getD c [] = [] := by
  rcases Nat.lt_or_ge c n with h | h
  · rw [List.getD_eq_getElem?_getD, List.getElem?_replicate, if_pos h]
    rfl
  · rw [List.getD_eq_getElem?_getD, List.getElem?_replicate, if_neg (by omega)]
    rfl

lemma cpv_fst_getD (points : List Vec3Q) (cams : List CamView) (c : ℕ)
    (hc : c < cams.length) :
    (compute_point_visibility points cams).1.getD c [] =
      (List.enumFrom 0 points).filterMap
        (fun q => obsOf q.1 q.2 (cams.getD c defaultCam)) := by
  rw [compute_point_visibility, outerLoop_eq cams points 0 _ (by simp)]
  rw [finalRows_getD cams _ _ c (by simp) hc, getD_replicate_nil, List.nil_append]

lemma length_filterMap_countP (f : (ℕ × Vec3Q) → Option Obs) :
    ∀ (l : List (ℕ × Vec3Q)),
      (l.filterMap f).length = l.countP (fun a => (f a).isSome) := by
  intro l
  induction l with
  | nil => rfl
  | cons a l ih =>
    rw [List.filterMap_cons, List.countP_cons]
    rcases h : f a with _ | b
    · simp [ih, h]
    · simp [ih, h]

lemma countVis_enum_take :
    ∀ (pts : List Vec3Q) (n p : ℕ) (cam : CamView),
      ((List.enumFrom n pts).take p).countP (fun q => (obsOf q.1 q.2 cam).isSome) =
        countVisPts cam (pts.take p) := by
  intro pts
  induction pts with
  | nil => intro n p cam; simp [countVisPts]
  | cons pt pts ih =>
    intro n p cam
    cases p with
    | zero => simp [countVisPts]
    | succ p =>
      simp only [List.enumFrom_cons, List.take_succ_cons, List.countP_cons]
      rw [ih (n + 1) p cam]
      simp [countVisPts, List.countP_cons, obsOf_isSome]

lemma map_length_getD :
    ∀ (rows : List (List Obs)) (c : ℕ), c < rows.length →
      (rows.map List.length).getD c 0 = (rows.getD c []).length := by
  intro rows
  induction rows with
  | nil => intro c hc; simp at hc
  | cons r rows ih =>
    intro c hc
    cases c with
    | zero => simp
    | succ c => simpa using ih c (by simpa using hc)

lemma cpv_snd_getD (points : List Vec3Q) (cams : List CamView) (p : ℕ)
    (hp : p < points.length) :
    (compute_point_visibility points cams).2.getD p [] =
      trackAt (points.getD p defaultPt) cams
        ((finalRows cams ((List.enumFrom 0 points).take p)
          (List.replicate cams.length [])).map List.length) 0 := by
  rw [compute_point_visibility, outerLoop_eq cams points 0 _ (by simp)]
  rw [List.getD_eq_getElem?_getD, allTracks_getElem, List.getElem?_enumFrom,
    List.getElem?_eq_getElem hp]
  rw [List.getD_eq_getElem?_getD, List.getElem?_eq_getElem hp]
  rfl

/-- C3: after `compute_point_visibility`, for every point index `p` and
camera index `c`, the track of point `p` contains the entry `(c + 1, k)`
iff the observation list of camera `c` has, at position `k`, an
observation whose point id is `p`; moreover each track has no duplicate
entries, so every 2D observation has exactly one corresponding track
entry and every track entry exactly one corresponding 2D observation. -/
theorem c3_track_obs_bijection (points : List Vec3Q) (cams : List CamView)
    (p c k : ℕ) (hp : p < points.length) (hc : c < cams.length) :
    (((c + 1, k) ∈ (compute_point_visibility points cams).2.getD p []) ↔
      (∃ o : Obs, ((compute_point_visibility points cams).1.getD c [])[k]? = some o ∧
        o.pid = p)) ∧
    ((compute_point_visibility points cams).2.getD p []).Nodup := by
  rw [cpv_snd_getD points cams p hp, cpv_fst_getD points cams c hc]
  set L := (finalRows cams ((List.enumFrom 0 points).take p)
    (List.replicate cams.length [])).map List.length with hL
  have hLlen : L.length = cams.length := by
    rw [hL, List.length_map, finalRows_length, List.length_replicate]
  have hLgetD : L.getD c 0 = countVisPts (cams.getD c defaultCam) (points.take p) := by
    rw [hL, map_length_getD _ c (by rw [finalRows_length, List.length_replicate]; exact hc)]
    rw [finalRows_getD cams _ _ c (by rw [List.length_replicate]) hc, getD_replicate_nil,
      List.nil_append, length_filterMap_countP, countVis_enum_take]
  constructor
  · rw [trackAt_mem _ cams L 0 c k hLlen]
    have h0 := row_get_pid points (cams.getD c defaultCam) 0 p k
    rw [Nat.zero_add] at h0
    rw [h0]
    simp only [Nat.sub_zero, Nat.zero_le, true_and, hLgetD]
    constructor
    · rintro ⟨-, h2, h3⟩; exact ⟨hp, h2, h3⟩
    · rintro ⟨-, h2, h3⟩; exact ⟨hc, h2, h3⟩
  · exact trackAt_nodup _ cams L 0

theorem c3_track_obs_bijection_witness :
    0 < ([onesPtQ] : List Vec3Q).length ∧ 0 < ([unitCamQ] : List CamView).length ∧
    ((compute_point_visibility [onesPtQ] [unitCamQ]).2.getD 0 []).Nodup :=
  ⟨by simp, by simp,
    (c3_track_obs_bijection [onesPtQ] [unitCamQ] 0 0 0 (by simp) (by simp)).2⟩

/-- C2: `compute_point_visibility` marks point `p` visible in camera `c`
(that is, camera `c` holds an observation of `p` and the track of `p`
holds an entry for camera `c`) iff the camera-frame point
`p_cam = R . p + t` has `p_cam.z > 0` and the pinhole projection
`(x, y) = (K . (p_cam / p_cam.z))[0..1]` satisfies `0 <= x < width` and
`0 <= y < height` (half-open bounds); a point rejected by the z test or
the bounds test contributes no observation and no track entry for that
camera. -/
theorem c2_visibility_characterization (points : List Vec3Q) (cams : List CamView)
    (p c : ℕ) (hp : p < points.length) (hc : c < cams.length) :
    ((∃ k : ℕ, ∃ o : Obs,
        ((compute_point_visibility points cams).1.getD c [])[k]? = some o ∧ o.pid = p) ↔
      (0 < camPoint (cams.getD c defaultCam) (points.getD p defaultPt) 2 ∧
        0 ≤ projHomo (cams.getD c defaultCam) (points.getD p defaultPt) 0 ∧
        projHomo (cams.getD c defaultCam) (points.getD p defaultPt) 0 <
          (cams.getD c defaultCam).width ∧
        0 ≤ projHomo (cams.getD c defaultCam) (points.getD p defaultPt) 1 ∧
        projHomo (cams.getD c defaultCam) (points.getD p defaultPt) 1 <
          (cams.getD c defaultCam).height)) ∧
    ((∃ k : ℕ, (c + 1, k) ∈ (compute_point_visibility points cams).2.getD p []) ↔
      (0 < camPoint (cams.getD c defaultCam) (points.getD p defaultPt) 2 ∧
        0 ≤ projHomo (cams.getD c defaultCam) (points.getD p defaultPt) 0 ∧
        projHomo (cams.getD c defaultCam) (points.getD p defaultPt) 0 <
          (cams.getD c defaultCam).width ∧
        0 ≤ projHomo (cams.getD c defaultCam) (points.getD p defaultPt) 1 ∧
        projHomo (cams.getD c defaultCam) (points.getD p defaultPt) 1 <
          (cams.getD c defaultCam).height)) := by
  rw [cpv_snd_getD points cams p hp, cpv_fst_getD points cams c hc]
  set L := (finalRows cams ((List.enumFrom 0 points).take p)
    (List.replicate cams.length [])).map List.length with hL
  have hLlen : L.length = cams.length := by
    rw [hL, List.length_map, finalRows_length, List.length_replicate]
  simp only [← visibleXY_isSome_iff]
  constructor
  · constructor
    · rintro ⟨k, hk⟩
      have h0 := row_get_pid points (cams.getD c defaultCam) 0 p k
      rw [Nat.zero_add] at h0
      exact (h0.mp hk).2.1
    · intro hvis
      refine ⟨countVisPts (cams.getD c defaultCam) (points.take p), ?_⟩
      have h0 := row_get_pid points (cams.getD c defaultCam) 0 p
        (countVisPts (cams.getD c defaultCam) (points.take p))
      rw [Nat.zero_add] at h0
      exact h0.mpr ⟨hp, hvis, rfl⟩
  · constructor
    · rintro ⟨k, hk⟩
      have h1 := (trackAt_mem _ cams L 0 c k hLlen).mp hk
      simpa using h1.2.2.1
    · intro hvis
      refine ⟨L.getD c 0, ?_⟩
      rw [trackAt_mem _ cams L 0 c (L.getD c 0) hLlen]
      exact ⟨Nat.zero_le _, by simpa using hc, by simpa using hvis, by simp⟩

theorem c2_visibility_characterization_witness :
    0 < ([onesPtQ] : List Vec3Q).length ∧ 0 < ([unitCamQ] : List CamView).length ∧
    ((∃ k : ℕ, (0 + 1, k) ∈ (compute_point_visibility [onesPtQ] [unitCamQ]).2.getD 0 []) ↔
      (0 < camPoint ([unitCamQ].getD 0 defaultCam) ([onesPtQ].getD 0 defaultPt) 2 ∧
        0 ≤ projHomo ([unitCamQ].getD 0 defaultCam) ([onesPtQ].getD 0 defaultPt) 0 ∧
        projHomo ([unitCamQ].getD 0 defaultCam) ([onesPtQ].getD 0 defaultPt) 0 <
          ([unitCamQ].getD 0 defaultCam).width ∧
        0 ≤ projHomo ([unitCamQ].getD 0 defaultCam) ([onesPtQ].getD 0 defaultPt) 1 ∧
        projHomo ([unitCamQ].getD 0 defaultCam) ([onesPtQ].getD 0 defaultPt) 1 <
          ([unitCamQ].getD 0 defaultCam).height)) :=
  ⟨by simp, by simp,
    (c2_visibility_characterization [onesPtQ] [unitCamQ] 0 0 (by simp) (by simp)).2⟩

/-! ## Lemmas: translation and rotation angle errors (C4, C5, C9) -/

lemma eps0_pos : (0 : ℝ) < eps0 := by
  rw [eps0]
  norm_num

lemma eps0_le_one : eps0 ≤ 1 := by
  rw [eps0]
  norm_num

lemma clamp_guard_bounds (d : ℝ) :
    ¬(1 - max eps0 (1 - d ^ 2) < 0 ∨ 1 < Real.sqrt (1 - max eps0 (1 - d ^ 2))) ∧
    Real.arccos (Real.sqrt (1 - max eps0 (1 - d ^ 2))) ∈ Set.Icc 0 (Real.pi / 2) := by
  have h1 : max eps0 (1 - d ^ 2) ≤ 1 :=
    max_le eps0_le_one (by nlinarith [sq_nonneg d])
  have h2 : 0 ≤ max eps0 (1 - d ^ 2) := le_trans eps0_pos.le (le_max_left _ _)
  have h3 : Real.sqrt (1 - max eps0 (1 - d ^ 2)) ≤ 1 := Real.sqrt_le_one.mpr (by linarith)
  refine ⟨?_, Real.arccos_nonneg _, Real.arccos_le_pi_div_two.mpr (Real.sqrt_nonneg _)⟩
  rintro (h | h) <;> linarith

lemma compare_translation_mem (t_gt t : Fin 3 → ℝ) :
    compare_translation_by_angle t_gt t ∈ Set.Icc 0 (Real.pi / 2) := by
  simp only [compare_translation_by_angle]
  rw [if_neg (clamp_guard_bounds _).1]
  exact (clamp_guard_bounds _).2

lemma compare_translation_zero :
    compare_translation_by_angle (fun _ => (0 : ℝ)) (fun _ => 0) = Real.pi / 2 := by
  simp only [compare_translation_by_angle]
  rw [show (∑ i : Fin 3, ((0:ℝ)) ^ 2) = 0 by simp]
  rw [Real.sqrt_zero]
  rw [show (∑ i : Fin 3, (0:ℝ) / (0 + eps0) * ((0:ℝ) / (0 + eps0))) = 0 by simp]
  rw [show ((0:ℝ)) ^ 2 = 0 by norm_num, max_eq_right (by linarith [eps0_le_one])]
  rw [show (1:ℝ) - (1 - 0) = 0 by norm_num, Real.sqrt_zero]
  rw [if_neg (by push_neg; constructor <;> norm_num)]
  exact Real.arccos_zero

/-- C4 (amended): `compare_translation_by_angle` never produces a
non-finite value — its result always lies in `[0, pi/2]`, so the NaN/Inf
replacement branch is unreachable and the result never equals the `1e6`
sentinel; a zero-length translation yields `arccos(0) = pi/2` (the `eps`
guard keeps the computation finite) rather than the sentinel. -/
theorem c4_translation_compare_no_nan (t_gt t : Fin 3 → ℝ) :
    compare_translation_by_angle t_gt t ∈ Set.Icc 0 (Real.pi / 2) ∧
    compare_translation_by_angle t_gt t ≠ sentinel ∧
    compare_translation_by_angle (fun _ => 0) (fun _ => 0) = Real.pi / 2 := by
  have hm := compare_translation_mem t_gt t
  refine ⟨hm, ?_, compare_translation_zero⟩
  intro h
  have h2 := hm.2
  rw [h, sentinel] at h2
  nlinarith [Real.pi_lt_d2]

/-- C4, counterexample to the claim as stated: on the degenerate
all-zero (zero-length) translation pair the code returns `pi/2`, not the
sentinel `1e6`. -/
theorem c4_sentinel_counterexample :
    compare_translation_by_angle (fun _ => (0 : ℝ)) (fun _ => 0) = Real.pi / 2 ∧
    compare_translation_by_angle (fun _ => (0 : ℝ)) (fun _ => 0) ≠ sentinel := by
  refine ⟨compare_translation_zero, ?_⟩
  rw [compare_translation_zero]
  intro h
  rw [sentinel] at h
  nlinarith [Real.pi_lt_d2]

/-- C5: the per-pair translation error of `translation_angle` lies in
`[0, 90]` degrees with ambiguity folding and in `[0, 180]` degrees
without it. -/
theorem c5_translation_angle_range (t_gt t : Fin 3 → ℝ) :
    translation_angle t_gt t true ∈ Set.Icc (0 : ℝ) 90 ∧
    translation_angle t_gt t false ∈ Set.Icc (0 : ℝ) 180 := by
  have hm := compare_translation_mem t_gt t
  have hpi : (0 : ℝ) < Real.pi := Real.pi_pos
  have h90 : Real.pi / 2 * 180 / Real.pi = 90 := by
    field_simp
    ring
  have hd0 : 0 ≤ compare_translation_by_angle t_gt t * 180 / Real.pi :=
    div_nonneg (mul_nonneg hm.1 (by norm_num)) hpi.le
  have hd90 : compare_translation_by_angle t_gt t * 180 / Real.pi ≤ 90 := by
    rw [← h90]
    exact (div_le_div_iff_of_pos_right hpi).mpr (by nlinarith [hm.2])
  constructor
  · simp only [translation_angle, if_true]
    constructor
    · exact le_min hd0 (abs_nonneg _)
    · exact le_trans (min_le_left _ _) hd90
  · simp only [translation_angle, Bool.false_eq_true, if_false]
    exact ⟨hd0, by linarith⟩

/-- C9: the rotation-error formula of `rotation_angle` — namely
`arccos(1 - 2 clamp(1 - (q_pred . q_gt)^2, eps)) * 180 / pi` — is
invariant to the quaternion sign ambiguity: replacing either quaternion
by its negation leaves the error unchanged, since the formula depends
only on the square of the dot product. -/
theorem c9_rotation_angle_sign_invariance (q_gt q_pred : Fin 4 → ℝ) :
    rotation_angle_q q_gt (-q_pred) = rotation_angle_q q_gt q_pred ∧
    rotation_angle_q (-q_gt) q_pred = rotation_angle_q q_gt q_pred := by
  constructor <;>
    simp [rotation_angle_q, Pi.neg_apply, neg_mul, mul_neg, Finset.sum_neg_distrib, neg_sq]

/-! ## Lemmas: sequence processing and aggregation (C6, C7) -/

lemma collectErrors_append_none (xs ys : List (Option (List ℝ × List ℝ))) :
    collectErrors (xs ++ none :: ys) = collectErrors (xs ++ ys) := by
  rw [collectErrors, collectErrors, List.foldl_append, List.foldl_append]
  rfl

/-- C6: in `process_sequence` (when the sequence passes the length and
annotation checks), every ground-truth SE(3) pose is re-anchored to the
first camera's frame by right-multiplying it with the closed-form
inverse of ground-truth pose 0 (`align_to_first_camera`), while the
predicted poses are passed to the pairwise error computation completely
unmodified. -/
theorem c6_gt_alignment_only (mtq : Matrix (Fin 3) (Fin 3) ℝ → Fin 4 → ℝ)
    (pred_extrinsic : ℕ → Matrix (Fin 3) (Fin 4) ℝ) (seq_data : List FrameAnno)
    (ids : List ℕ) (min_num_images num_frames : ℕ)
    (gt_se3 : ℕ → Matrix (Fin 4) (Fin 4) ℝ)
    (h1 : ¬(seq_data.length < min_num_images))
    (h2 : ¬∃ d ∈ seq_data, (10 ^ 5 : ℝ) < d.T 0 + d.T 1 + d.T 2)
    (hgt : gt_se3 = fun i =>
      toSE3 (convert_pt3d_RT_to_opencv
        (seq_data.getD (ids.getD i 0) ⟨fun _ => 0, 0⟩).Rm
        (seq_data.getD (ids.getD i 0) ⟨fun _ => 0, 0⟩).T)) :
    process_sequence mtq pred_extrinsic seq_data ids min_num_images num_frames =
      some (se3_to_relative_pose_error mtq
        (fun i => toSE3 (pred_extrinsic i))
        (fun i => gt_se3 i * closed_form_inverse_se3 (gt_se3 0)) num_frames) ∧
    align_to_first_camera gt_se3 =
      fun i => gt_se3 i * closed_form_inverse_se3 (gt_se3 0) := by
  subst hgt
  constructor
  · simp only [process_sequence]
    rw [if_neg h1, if_neg h2]
    rfl
  · rfl

theorem c6_gt_alignment_only_witness :
    ¬(([⟨fun _ => 0, 0⟩] : List FrameAnno).length < 1) ∧
    ¬(∃ d ∈ ([⟨fun _ => 0, 0⟩] : List FrameAnno), (10 ^ 5 : ℝ) < d.T 0 + d.T 1 + d.T 2) ∧
    process_sequence (fun _ _ => 0) (fun _ => 0) [⟨fun _ => 0, 0⟩] [0] 1 1 =
      some (se3_to_relative_pose_error (fun _ _ => 0)
        (fun i => toSE3 ((fun _ => 0) i))
        (fun i =>
          (fun j => toSE3 (convert_pt3d_RT_to_opencv
            (([⟨fun _ => 0, 0⟩] : List FrameAnno).getD (([0] : List ℕ).getD j 0)
              ⟨fun _ => 0, 0⟩).Rm
            (([⟨fun _ => 0, 0⟩] : List FrameAnno).getD (([0] : List ℕ).getD j 0)
              ⟨fun _ => 0, 0⟩).T)) i *
          closed_form_inverse_se3
            ((fun j => toSE3 (convert_pt3d_RT_to_opencv
              (([⟨fun _ => 0, 0⟩] : List FrameAnno).getD (([0] : List ℕ).getD j 0)
                ⟨fun _ => 0, 0⟩).Rm
              (([⟨fun _ => 0, 0⟩] : List FrameAnno).getD (([0] : List ℕ).getD j 0)
                ⟨fun _ => 0, 0⟩).T)) 0)) 1) :=
  ⟨by simp, by norm_num, (c6_gt_alignment_only (fun _ _ => 0) (fun _ => 0)
    [⟨fun _ => 0, 0⟩] [0] 1 1 _ (by simp) (by norm_num) rfl).1⟩

/-- C7: `process_sequence` returns no errors (`None`) when the sequence
has fewer frames than the configured minimum or when any ground-truth
translation's coordinate sum `T[0] + T[1] + T[2]` exceeds `1e5`; in
either case the whole sequence is discarded and contributes nothing to
the category-level error aggregation of `main`. -/
theorem c7_sequence_skip (mtq : Matrix (Fin 3) (Fin 3) ℝ → Fin 4 → ℝ)
    (pred_extrinsic : ℕ → Matrix (Fin 3) (Fin 4) ℝ) (seq_data : List FrameAnno)
    (ids : List ℕ) (min_num_images num_frames : ℕ)
    (h : seq_data.length < min_num_images ∨
      ∃ d ∈ seq_data, (10 ^ 5 : ℝ) < d.T 0 + d.T 1 + d.T 2) :
    process_sequence mtq pred_extrinsic seq_data ids min_num_images num_frames = none ∧
    ∀ (xs ys : List (Option (List ℝ × List ℝ))),
      collectErrors (xs ++
        process_sequence mtq pred_extrinsic seq_data ids min_num_images num_frames :: ys) =
        collectErrors (xs ++ ys) := by
  have hnone :
      process_sequence mtq pred_extrinsic seq_data ids min_num_images num_frames = none := by
    by_cases hlen : seq_data.length < min_num_images
    · simp only [process_sequence]
      rw [if_pos hlen]
    · rcases h with h | hex
      · exact absurd h hlen
      · simp only [process_sequence]
        rw [if_neg hlen, if_pos hex]
  refine ⟨hnone, ?_⟩
  intro xs ys
  rw [hnone]
  exact collectErrors_append_none xs ys

theorem c7_sequence_skip_witness :
    (([] : List FrameAnno).length < 1 ∨
      ∃ d ∈ ([] : List FrameAnno), (10 ^ 5 : ℝ) < d.T 0 + d.T 1 + d.T 2) ∧
    process_sequence (fun _ _ => 0) (fun _ => 0) [] [] 1 2 = none :=
  ⟨Or.inl (by simp),
    (c7_sequence_skip (fun _ _ => 0) (fun _ => 0) [] [] 1 2 (Or.inl (by simp))).1⟩

/-! ## Lemmas: AUC computations (C8, C10) -/

open Classical in
lemma countIf_cons (x : ℝ) (xs : List ℝ) (P : ℝ → Prop) :
    countIf (x :: xs) P = (if P x then 1 else 0) + countIf xs P := by
  simp [countIf]

open Classical in
lemma countIf_singleton (x : ℝ) (P : ℝ → Prop) :
    countIf [x] P = if P x then 1 else 0 := by
  simp [countIf]

lemma countIf_nil (P : ℝ → Prop) : countIf [] P = 0 := rfl

lemma countIf_all (P : ℝ → Prop) :
    ∀ (xs : List ℝ), (∀ x ∈ xs, P x) → countIf xs P = xs.length := by
  intro xs
  induction xs with
  | nil => intro _; rfl
  | cons x xs ih =>
    intro h
    rw [countIf_cons, if_pos (h x (List.mem_cons_self x xs)),
      ih (fun y hy => h y (List.mem_cons_of_mem x hy))]
    simp [Nat.add_comm]

lemma countIf_none (P : ℝ → Prop) :
    ∀ (xs : List ℝ), (∀ x ∈ xs, ¬P x) → countIf xs P = 0 := by
  intro xs
  induction xs with
  | nil => intro _; rfl
  | cons x xs ih =>
    intro h
    rw [countIf_cons, if_neg (h x (List.mem_cons_self x xs)),
      ih (fun y hy => h y (List.mem_cons_of_mem x hy))]

lemma countIf_le_length (P : ℝ → Prop) :
    ∀ (xs : List ℝ), countIf xs P ≤ xs.length := by
  intro xs
  induction xs with
  | nil => exact Nat.le_refl 0
  | cons x xs ih =>
    rw [countIf_cons]
    simp only [List.length_cons]
    by_cases h : P x
    · rw [if_pos h]; omega
    · rw [if_neg h]; omega

lemma sum_map_range {M : Type} [AddCommMonoid M] (f : ℕ → M) :
    ∀ n : ℕ, ((List.range n).map f).sum = ∑ i ∈ Finset.range n, f i := by
  intro n
  induction n with
  | zero => rfl
  | succ n ih =>
    rw [List.range_succ, List.map_append, List.sum_append, Finset.sum_range_succ, ih]
    simp

lemma binNp_unique (m : ℕ) (x : ℝ) (i j : ℕ) (hi : i < m) (hj : j < m)
    (hbi : binNp m i x) (hbj : binNp m j x) : i = j := by
  obtain ⟨hi1, hi2⟩ := hbi
  obtain ⟨hj1, hj2⟩ := hbj
  rcases Nat.lt_trichotomy i j with h | h | h
  · by_cases hil : i + 1 = m
    · omega
    · rw [if_neg hil] at hi2
      have hcast : ((i : ℝ) + 1) ≤ (j : ℝ) := by exact_mod_cast Nat.succ_le_of_lt h
      linarith
  · exact h
  · by_cases hjl : j + 1 = m
    · omega
    · rw [if_neg hjl] at hj2
      have hcast : ((j : ℝ) + 1) ≤ (i : ℝ) := by exact_mod_cast Nat.succ_le_of_lt h
      linarith

open Classical in
lemma histogram_np_sum_le (m : ℕ) (xs : List ℝ) :
    (histogram_np xs m).sum ≤ xs.length := by
  induction xs with
  | nil =>
    rw [histogram_np]
    have : ∀ y ∈ (List.range m).map fun i => countIf [] (binNp m i), y = 0 := by
      intro y hy
      rcases List.mem_map.mp hy with ⟨i, -, rfl⟩
      rfl
    rw [List.sum_eq_zero this]
    exact Nat.zero_le _
  | cons x xs ih =>
    have hsplit : (histogram_np (x :: xs) m).sum =
        (∑ i ∈ Finset.range m, if binNp m i x then 1 else 0) + (histogram_np xs m).sum := by
      rw [histogram_np, histogram_np, sum_map_range, sum_map_range, ← Finset.sum_add_distrib]
      refine Finset.sum_congr rfl ?_
      intro i _
      rw [countIf_cons]
    have hone : (∑ i ∈ Finset.range m, if binNp m i x then (1 : ℕ) else 0) ≤ 1 := by
      rw [← Finset.card_filter]
      refine Finset.card_le_one.mpr ?_
      intro a ha b hb
      rw [Finset.mem_filter, Finset.mem_range] at ha hb
      exact binNp_unique m x a b ha.1 hb.1 ha.2 hb.2
    rw [hsplit]
    simp only [List.length_cons]
    omega

lemma cumsum_entry_bounds (l : List ℝ) (h0 : ∀ x ∈ l, 0 ≤ x) (hs : l.sum ≤ 1) :
    ∀ y ∈ cumsum l, 0 ≤ y ∧ y ≤ 1 := by
  intro y hy
  rw [cumsum] at hy
  rcases List.mem_map.mp hy with ⟨i, -, rfl⟩
  constructor
  · exact List.sum_nonneg (fun x hx => h0 x (List.mem_of_mem_take hx))
  · refine le_trans ?_ hs
    have hdrop : 0 ≤ (l.drop (i + 1)).sum :=
      List.sum_nonneg (fun x hx => h0 x (List.mem_of_mem_drop hx))
    calc (l.take (i + 1)).sum ≤ (l.take (i + 1)).sum + (l.drop (i + 1)).sum := by linarith
      _ = l.sum := by rw [← List.sum_append, List.take_append_drop]

lemma meanList_mem_Icc (l : List ℝ) (hl : ∀ x ∈ l, 0 ≤ x ∧ x ≤ 1) :
    meanList l ∈ Set.Icc (0 : ℝ) 1 := by
  rcases eq_or_ne l [] with rfl | hne
  · rw [meanList]
    norm_num
  · have hlen : 0 < l.length := List.length_pos.mpr hne
    have hsum0 : 0 ≤ l.sum := List.sum_nonneg (fun x hx => (hl x hx).1)
    have hsum1 : l.sum ≤ l.length • (1 : ℝ) :=
      List.sum_le_card_nsmul l 1 (fun x hx => (hl x hx).2)
    rw [nsmul_eq_mul, mul_one] at hsum1
    rw [meanList]
    constructor
    · exact div_nonneg hsum0 (by positivity)
    · rw [div_le_one (by exact_mod_cast hlen)]
      exact hsum1

lemma sum_map_div_nat (d : ℝ) :
    ∀ (h : List ℕ), (h.map fun c : ℕ => (c : ℝ) / d).sum = ((h.sum : ℕ) : ℝ) / d := by
  intro h
  induction h with
  | nil => simp
  | cons c h ih =>
    rw [List.map_cons, List.sum_cons, ih, List.sum_cons]
    push_cast
    rw [add_div]

lemma calculate_auc_np_mem_Icc (r t : List ℝ) (m : ℕ) :
    calculate_auc_np r t m ∈ Set.Icc (0 : ℝ) 1 := by
  rw [calculate_auc_np]
  apply meanList_mem_Icc
  apply cumsum_entry_bounds
  · intro x hx
    rcases List.mem_map.mp hx with ⟨c, -, rfl⟩
    exact div_nonneg (Nat.cast_nonneg _) (Nat.cast_nonneg _)
  · rw [sum_map_div_nat]
    rcases Nat.eq_zero_or_pos (List.zipWith max r t).length with h0 | hpos
    · rw [List.length_eq_zero.mp h0]
      have : (histogram_np ([] : List ℝ) m).sum = 0 := by
        rw [histogram_np]
        refine List.sum_eq_zero ?_
        intro y hy
        rcases List.mem_map.mp hy with ⟨i, -, rfl⟩
        rfl
      rw [this]
      norm_num
    · rw [div_le_one (by exact_mod_cast hpos)]
      exact_mod_cast histogram_np_sum_le m (List.zipWith max r t)

lemma sum_ite_le_real (k : ℕ) :
    ∀ B : ℕ, (∑ i ∈ Finset.range B, if k ≤ i then (1 : ℝ) else 0) = ((B - k : ℕ) : ℝ) := by
  intro B
  induction B with
  | zero => simp
  | succ B ih =>
    rw [Finset.sum_range_succ, ih]
    by_cases h : k ≤ B
    · rw [if_pos h, show B + 1 - k = (B - k) + 1 by omega]
      push_cast
      ring
    · rw [if_neg h, show B - k = 0 by omega, show B + 1 - k = 0 by omega]
      norm_num

lemma take_range_map_sum (g : ℕ → ℝ) (B i : ℕ) (hi : i < B) :
    (((List.range B).map g).take (i + 1)).sum = ∑ j ∈ Finset.range (i + 1), g j := by
  rw [← List.map_take, List.take_range, show min (i + 1) B = i + 1 by omega]
  exact sum_map_range g (i + 1)

open Classical in
lemma mean_cumsum_delta (B k : ℕ) (hk : k < B) (g : ℕ → ℝ)
    (hg : ∀ j < B, g j = if j = k then 1 else 0) :
    meanList (cumsum ((List.range B).map g)) = ((B - k : ℕ) : ℝ) / (B : ℝ) := by
  have hlen : ((List.range B).map g).length = B := by simp
  rw [meanList, cumsum, hlen]
  have hentry : ∀ i ∈ Finset.range B,
      (((List.range B).map g).take (i + 1)).sum = if k ≤ i then (1 : ℝ) else 0 := by
    intro i hi
    rw [take_range_map_sum g B i (Finset.mem_range.mp hi)]
    rw [Finset.sum_congr rfl (fun j hj => hg j (by
      have h1 := Finset.mem_range.mp hj
      have h2 := Finset.mem_range.mp hi
      omega))]
    rw [Finset.sum_ite_eq' (Finset.range (i + 1)) k (fun _ => (1 : ℝ))]
    simp [Finset.mem_range, Nat.lt_succ_iff]
  rw [sum_map_range, Finset.sum_congr rfl hentry, sum_ite_le_real k B]
  congr 1
  simp

lemma mean_cumsum_zeros (B : ℕ) (g : ℕ → ℝ) (hg : ∀ j < B, g j = 0) :
    meanList (cumsum ((List.range B).map g)) = 0 := by
  have hlen : ((List.range B).map g).length = B := by simp
  rw [meanList, cumsum, hlen]
  have hentry : ∀ i ∈ Finset.range B,
      (((List.range B).map g).take (i + 1)).sum = 0 := by
    intro i hi
    rw [take_range_map_sum g B i (Finset.mem_range.mp hi)]
    refine Finset.sum_eq_zero ?_
    intro j hj
    exact hg j (by
      have h1 := Finset.mem_range.mp hj
      have h2 := Finset.mem_range.mp hi
      omega)
  rw [sum_map_range, Finset.sum_congr rfl hentry, Finset.sum_const, Finset.card_range]
  simp

lemma calculate_auc_np_eq (r t : List ℝ) (m : ℕ) :
    calculate_auc_np r t m = meanList (cumsum ((List.range m).map
      (fun i => (countIf (List.zipWith max r t) (binNp m i) : ℝ) /
        ((List.zipWith max r t).length : ℝ)))) := by
  rw [calculate_auc_np, histogram_np, List.map_map]
  rfl

lemma calculate_auc_eq (r t : List ℝ) (m : ℕ) :
    calculate_auc r t m = meanList (cumsum ((List.range (m + 1)).map
      (fun i => (countIf (List.zipWith max r t) (binHc (m + 1) 0 m i) : ℝ) /
        ((List.zipWith max r t).length : ℝ)))) := by
  rw [calculate_auc, histc, List.map_map]
  rfl

lemma arccos_near_one_bounds (s : ℝ) (hs1 : 1 - 5 / 10 ^ 9 ≤ s) (hs2 : s ≤ 1) :
    0 ≤ Real.arccos s * 180 / Real.pi ∧ Real.arccos s * 180 / Real.pi < 1 := by
  have hpi := Real.pi_pos
  constructor
  · exact div_nonneg (mul_nonneg (Real.arccos_nonneg s) (by norm_num)) hpi.le
  · have hxpos : (0 : ℝ) < Real.pi / 180 := by positivity
    have ha1 : (0.0174 : ℝ) ≤ Real.pi / 180 := by nlinarith [Real.pi_gt_3141592]
    have ha2 : Real.pi / 180 ≤ (0.0175 : ℝ) := by nlinarith [Real.pi_lt_3141593]
    have hxb : |Real.pi / 180| ≤ 1 := by
      rw [abs_of_pos hxpos]
      linarith
    have hcb := Real.cos_bound hxb
    rw [abs_of_pos hxpos] at hcb
    have h1 : Real.cos (Real.pi / 180) ≤
        1 - (Real.pi / 180) ^ 2 / 2 + (Real.pi / 180) ^ 4 * (5 / 96) :=
      by linarith [(abs_le.mp hcb).2]
    have h2 : (0.0174 : ℝ) ^ 2 ≤ (Real.pi / 180) ^ 2 :=
      pow_le_pow_left (by norm_num) ha1 2
    have h4 : (Real.pi / 180) ^ 4 ≤ (0.0175 : ℝ) ^ 4 :=
      pow_le_pow_left hxpos.le ha2 4
    have hcos_lt : Real.cos (Real.pi / 180) < 1 - 5 / 10 ^ 9 := by
      nlinarith
    have harc : Real.arccos s < Real.pi / 180 := by
      have hmem1 : Real.cos (Real.pi / 180) ∈ Set.Icc (-1 : ℝ) 1 :=
        ⟨Real.neg_one_le_cos _, Real.cos_le_one _⟩
      have hmem2 : s ∈ Set.Icc (-1 : ℝ) 1 := ⟨by nlinarith, hs2⟩
      have h3 : Real.arccos s < Real.arccos (Real.cos (Real.pi / 180)) :=
        Real.strictAntiOn_arccos hmem1 hmem2 (by linarith)
      rw [Real.arccos_cos hxpos.le (by nlinarith)] at h3
      exact h3
    rw [div_lt_one hpi]
    nlinarith [Real.arccos_nonneg s]

lemma rotation_angle_q_self_bounds (q : Fin 4 → ℝ) (hq : (∑ i, q i * q i) = 1) :
    0 ≤ rotation_angle_q q q ∧ rotation_angle_q q q < 1 := by
  rw [rotation_angle_q, hq, one_pow, sub_self, max_eq_left eps0_pos.le]
  exact arccos_near_one_bounds (1 - 2 * eps0) (by rw [eps0]; norm_num)
    (by nlinarith [eps0_pos])

lemma translation_angle_self_bounds (t : Fin 3 → ℝ)
    (ht : 1 / 10 ^ 12 ≤ ∑ i, t i ^ 2) :
    0 ≤ translation_angle t t true ∧ translation_angle t t true < 1 := by
  set S := ∑ i, t i ^ 2 with hS
  have hS0 : (0 : ℝ) < S := lt_of_lt_of_le (by norm_num) ht
  set r := Real.sqrt S with hr
  have hr2 : r ^ 2 = S := Real.sq_sqrt hS0.le
  have hrpos : 0 < r := Real.sqrt_pos.mpr hS0
  have hrlb : 1 / 10 ^ 6 ≤ r := by
    rw [hr, show (1 : ℝ) / 10 ^ 6 = Real.sqrt (1 / 10 ^ 12) by
      rw [show (1 : ℝ) / 10 ^ 12 = (1 / 10 ^ 6) ^ 2 by norm_num,
        Real.sqrt_sq (by norm_num)]]
    exact Real.sqrt_le_sqrt ht
  have hA : 0 < r + eps0 := by linarith [eps0_pos]
  have hdot : (∑ i, t i / (r + eps0) * (t i / (r + eps0))) = S / (r + eps0) ^ 2 := by
    rw [hS, Finset.sum_div]
    refine Finset.sum_congr rfl ?_
    intro i _
    rw [div_mul_div_comm, ← sq, ← sq]
  have hkey : 1 - (S / (r + eps0) ^ 2) ^ 2 ≤ 5 / 10 ^ 9 := by
    have heps_r : eps0 ≤ r / 10 ^ 9 := by
      rw [eps0]
      nlinarith
    have hA_le : r + eps0 ≤ r * (1 + 1 / 10 ^ 9) := by nlinarith
    have hA4 : (r + eps0) ^ 4 ≤ (r * (1 + 1 / 10 ^ 9)) ^ 4 :=
      pow_le_pow_left hA.le hA_le 4
    have hS2 : S ^ 2 = r ^ 4 := by rw [← hr2]; ring
    have hfrac : (S / (r + eps0) ^ 2) ^ 2 = r ^ 4 / (r + eps0) ^ 4 := by
      rw [div_pow, hS2]
      norm_num [← pow_mul]
    rw [hfrac]
    have hX : 1 - 5 / 10 ^ 9 ≤ r ^ 4 / (r + eps0) ^ 4 := by
      rw [le_div_iff (by positivity)]
      have hr4pos : (0 : ℝ) < r ^ 4 := pow_pos hrpos 4
      have hexp : (r * (1 + 1 / 10 ^ 9)) ^ 4 = r ^ 4 * (1 + 1 / 10 ^ 9) ^ 4 := by ring
      nlinarith [hA4]
    linarith
  have hguard := clamp_guard_bounds (∑ i, t i / (r + eps0) * (t i / (r + eps0)))
  have hcmp_eq : compare_translation_by_angle t t =
      Real.arccos (Real.sqrt (1 - max eps0 (1 - (S / (r + eps0) ^ 2) ^ 2))) := by
    simp only [compare_translation_by_angle]
    rw [if_neg hguard.1, hdot]
  set L := max eps0 (1 - (S / (r + eps0) ^ 2) ^ 2) with hL
  have hL_le : L ≤ 5 / 10 ^ 9 := max_le (by rw [eps0]; norm_num) hkey
  have hL0 : 0 ≤ L := le_trans eps0_pos.le (le_max_left _ _)
  have hsq : 1 - 5 / 10 ^ 9 ≤ Real.sqrt (1 - L) := by
    have h1 : (1 - L) ≤ Real.sqrt (1 - L) :=
      Real.le_sqrt_of_sq_le (by nlinarith)
    linarith
  have hsq1 : Real.sqrt (1 - L) ≤ 1 := Real.sqrt_le_one.mpr (by linarith)
  have hbounds := arccos_near_one_bounds _ hsq hsq1
  simp only [translation_angle, if_true]
  rw [hcmp_eq]
  exact ⟨le_min hbounds.1 (abs_nonneg _), lt_of_le_of_lt (min_le_left _ _) hbounds.2⟩

lemma exists_of_mem_zipWith {α : Type} (f : α → α → α) :
    ∀ (l1 l2 : List α) (x : α), x ∈ List.zipWith f l1 l2 →
      ∃ a ∈ l1, ∃ b ∈ l2, x = f a b := by
  intro l1
  induction l1 with
  | nil => intro l2 x h; simp at h
  | cons a l1 ih =>
    intro l2 x h
    cases l2 with
    | nil => simp at h
    | cons b l2 =>
      rw [List.zipWith_cons_cons] at h
      rcases List.mem_cons.mp h with h | h
      · exact ⟨a, by simp, b, by simp, h⟩
      · rcases ih l2 x h with ⟨a', ha, b', hb, hx⟩
        exact ⟨a', by simp [ha], b', by simp [hb], hx⟩

lemma se3_self_rot_mem (mtq : Matrix (Fin 3) (Fin 3) ℝ → Fin 4 → ℝ)
    (gt : ℕ → Matrix (Fin 4) (Fin 4) ℝ) (n : ℕ) :
    ∀ e ∈ (se3_to_relative_pose_error mtq gt gt n).1,
      ∃ ij ∈ build_pair_index n,
        e = rotation_angle_q
          (mtq (topLeft3 (closed_form_inverse_se3 (gt ij.1) * gt ij.2)))
          (mtq (topLeft3 (closed_form_inverse_se3 (gt ij.1) * gt ij.2))) := by
  intro e he
  simp only [se3_to_relative_pose_error] at he
  rw [List.zipWith_same, List.map_map] at he
  rcases List.mem_map.mp he with ⟨ij, hij, rfl⟩
  exact ⟨ij, hij, rfl⟩

lemma se3_self_trans_mem (mtq : Matrix (Fin 3) (Fin 3) ℝ → Fin 4 → ℝ)
    (gt : ℕ → Matrix (Fin 4) (Fin 4) ℝ) (n : ℕ) :
    ∀ e ∈ (se3_to_relative_pose_error mtq gt gt n).2,
      ∃ ij ∈ build_pair_index n,
        e = translation_angle
          (transCol (closed_form_inverse_se3 (gt ij.1) * gt ij.2))
          (transCol (closed_form_inverse_se3 (gt ij.1) * gt ij.2)) true := by
  intro e he
  simp only [se3_to_relative_pose_error] at he
  rw [List.zipWith_same, List.map_map] at he
  rcases List.mem_map.mp he with ⟨ij, hij, rfl⟩
  exact ⟨ij, hij, rfl⟩

lemma mem_build_pair_index_zero_one (n : ℕ) (hn : 2 ≤ n) :
    ((0, 1) : ℕ × ℕ) ∈ build_pair_index n := by
  rw [build_pair_index, List.mem_filter]
  constructor
  · rw [List.mem_flatMap]
    refine ⟨0, ?_, ?_⟩
    · rw [List.mem_range]; omega
    · rw [List.mem_map]
      exact ⟨1, by rw [List.mem_range]; omega, rfl⟩
  · simp

lemma se3_self_max_mem (mtq : Matrix (Fin 3) (Fin 3) ℝ → Fin 4 → ℝ)
    (gt : ℕ → Matrix (Fin 4) (Fin 4) ℝ) (n : ℕ)
    (hrot : ∀ e ∈ (se3_to_relative_pose_error mtq gt gt n).1, 0 ≤ e ∧ e < 1)
    (htr : ∀ e ∈ (se3_to_relative_pose_error mtq gt gt n).2, 0 ≤ e ∧ e < 1) :
    ∀ x ∈ List.zipWith max (se3_to_relative_pose_error mtq gt gt n).1
      (se3_to_relative_pose_error mtq gt gt n).2, 0 ≤ x ∧ x < 1 := by
  intro x hx
  rcases exists_of_mem_zipWith max _ _ x hx with ⟨a, ha, b, hb, hx⟩
  have h1 := hrot a ha
  have h2 := htr b hb
  subst hx
  exact ⟨le_max_of_le_left h1.1, max_lt h1.2 h2.2⟩

open Classical in
lemma calculate_auc_np_all_first_bin (r t : List ℝ) (m : ℕ) (hm : 0 < m)
    (hne : (List.zipWith max r t).length ≠ 0)
    (hall : ∀ x ∈ List.zipWith max r t, 0 ≤ x ∧ x < 1) :
    calculate_auc_np r t m = 1 := by
  rw [calculate_auc_np_eq]
  have hg : ∀ j < m, (countIf (List.zipWith max r t) (binNp m j) : ℝ) /
      ((List.zipWith max r t).length : ℝ) = if j = 0 then 1 else 0 := by
    intro j hj
    by_cases hj0 : j = 0
    · subst hj0
      rw [if_pos rfl, countIf_all (binNp m 0) _ ?_]
      · exact div_self (by exact_mod_cast hne)
      · intro x hx
        refine ⟨by rw [Nat.cast_zero]; exact (hall x hx).1, ?_⟩
        by_cases h1 : 0 + 1 = m
        · rw [if_pos h1]
          have : (1 : ℝ) ≤ (m : ℝ) := by exact_mod_cast hm
          linarith [(hall x hx).2]
        · rw [if_neg h1, Nat.cast_zero, zero_add]
          exact (hall x hx).2
    · rw [if_neg hj0, countIf_none (binNp m j) _ ?_, Nat.cast_zero, zero_div]
      intro x hx
      rintro ⟨h1, -⟩
      have hj1 : (1 : ℝ) ≤ (j : ℝ) := by
        exact_mod_cast Nat.one_le_iff_ne_zero.mpr hj0
      linarith [(hall x hx).2]
  rw [mean_cumsum_delta m 0 hm _ hg, Nat.sub_zero]
  exact div_self (by exact_mod_cast hm.ne')

open Classical in
lemma calculate_auc_np_all_above (r t : List ℝ) (m : ℕ)
    (hall : ∀ x ∈ List.zipWith max r t, (m : ℝ) < x) :
    calculate_auc_np r t m = 0 := by
  rw [calculate_auc_np_eq]
  apply mean_cumsum_zeros
  intro j hj
  rw [countIf_none (binNp m j) _ ?_, Nat.cast_zero, zero_div]
  intro x hx
  rintro ⟨h1, h2⟩
  have hx' := hall x hx
  by_cases hl : j + 1 = m
  · rw [if_pos hl] at h2
    linarith
  · rw [if_neg hl] at h2
    have : (j : ℝ) + 1 ≤ (m : ℝ) := by exact_mod_cast (by omega : j + 1 ≤ m)
    linarith

lemma cfinv_one : closed_form_inverse_se3 1 = 1 := by
  ext i j
  fin_cases i <;> fin_cases j <;>
    norm_num [closed_form_inverse_se3, Matrix.one_apply, Fin.ext_iff] <;> decide

lemma transCol_one : transCol (1 : Matrix (Fin 4) (Fin 4) ℝ) = fun _ => 0 := by
  funext i
  fin_cases i <;> norm_num [transCol, Matrix.one_apply, Fin.ext_iff] <;> decide

lemma translation_angle_zero_fold :
    translation_angle (fun _ => (0 : ℝ)) (fun _ => 0) true = 90 := by
  simp only [translation_angle, if_true]
  rw [compare_translation_zero, show Real.pi / 2 * 180 / Real.pi = 90 by
    field_simp; ring]
  rw [show |(180 : ℝ) - 90| = 90 by norm_num, min_self]

lemma build_pair_index_two : build_pair_index 2 = [(0, 1)] := by decide

lemma mtqW_unit : ∀ M, (∑ i, mtqW M i * mtqW M i) = 1 := by
  intro M
  rw [mtqW, Fin.sum_univ_four]
  norm_num

lemma gtW_zero : gtW 0 = 1 := by
  rw [gtW]
  norm_num

lemma gtW_one : gtW 1 = tzMat := by
  rw [gtW]
  norm_num

lemma gtW_trans_bound : ∀ ij ∈ build_pair_index 2, 1 / 10 ^ 12 ≤
    ∑ i : Fin 3, transCol (closed_form_inverse_se3 (gtW ij.1) * gtW ij.2) i ^ 2 := by
  intro ij hij
  rw [build_pair_index_two, List.mem_singleton] at hij
  subst hij
  rw [show ((0, 1) : ℕ × ℕ).1 = 0 by rfl, show ((0, 1) : ℕ × ℕ).2 = 1 by rfl]
  rw [gtW_zero, gtW_one, cfinv_one, one_mul]
  rw [Fin.sum_univ_three]
  norm_num [transCol, tzMat, show ((2 : Fin 3).castSucc : Fin 4) = 2 from rfl,
    show ((1 : Fin 3).castSucc : Fin 4) = 1 from rfl,
    show ((0 : Fin 3).castSucc : Fin 4) = 0 from rfl]

/-- C8 (amended): the AUC returned by `calculate_auc_np` always lies in
`[0, 1]` for every pair of error arrays; and when the predicted pose set
is identical to the ground-truth pose set — provided the quaternion
conversion returns unit quaternions and every pairwise relative
translation has squared norm at least `1e-12` — every pairwise rotation
and translation error falls in the first histogram bin `[0, 1)` and the
AUC at threshold 30 equals `1`.  (Without the translation condition the
claim fails: a zero relative translation yields a 90-degree error.) -/
theorem c8_auc_range_and_identity (r t : List ℝ) (m : ℕ)
    (mtq : Matrix (Fin 3) (Fin 3) ℝ → Fin 4 → ℝ)
    (gt : ℕ → Matrix (Fin 4) (Fin 4) ℝ) (n : ℕ)
    (hn : 2 ≤ n)
    (hunit : ∀ M, (∑ i, mtq M i * mtq M i) = 1)
    (htrans : ∀ ij ∈ build_pair_index n, 1 / 10 ^ 12 ≤
      ∑ i : Fin 3, transCol (closed_form_inverse_se3 (gt ij.1) * gt ij.2) i ^ 2) :
    calculate_auc_np r t m ∈ Set.Icc (0 : ℝ) 1 ∧
    (∀ e ∈ (se3_to_relative_pose_error mtq gt gt n).1, 0 ≤ e ∧ e < 1) ∧
    (∀ e ∈ (se3_to_relative_pose_error mtq gt gt n).2, 0 ≤ e ∧ e < 1) ∧
    calculate_auc_np (se3_to_relative_pose_error mtq gt gt n).1
      (se3_to_relative_pose_error mtq gt gt n).2 30 = 1 := by
  have hrot : ∀ e ∈ (se3_to_relative_pose_error mtq gt gt n).1, 0 ≤ e ∧ e < 1 := by
    intro e he
    rcases se3_self_rot_mem mtq gt n e he with ⟨ij, hij, rfl⟩
    exact rotation_angle_q_self_bounds _ (hunit _)
  have htr : ∀ e ∈ (se3_to_relative_pose_error mtq gt gt n).2, 0 ≤ e ∧ e < 1 := by
    intro e he
    rcases se3_self_trans_mem mtq gt n e he with ⟨ij, hij, rfl⟩
    exact translation_angle_self_bounds _ (htrans ij hij)
  refine ⟨calculate_auc_np_mem_Icc r t m, hrot, htr, ?_⟩
  refine calculate_auc_np_all_first_bin _ _ 30 (by norm_num) ?_
    (se3_self_max_mem mtq gt n hrot htr)
  have hpairs : build_pair_index n ≠ [] := by
    intro h
    have h01 := mem_build_pair_index_zero_one n hn
    rw [h] at h01
    exact List.not_mem_nil _ h01
  have hlen : (List.zipWith max (se3_to_relative_pose_error mtq gt gt n).1
      (se3_to_relative_pose_error mtq gt gt n).2).length =
      (build_pair_index n).length := by
    simp [se3_to_relative_pose_error]
  rw [hlen]
  intro h0
  exact hpairs (List.length_eq_zero.mp h0)

theorem c8_auc_range_and_identity_witness :
    2 ≤ 2 ∧
    (∀ M, (∑ i, mtqW M i * mtqW M i) = 1) ∧
    (∀ ij ∈ build_pair_index 2, 1 / 10 ^ 12 ≤
      ∑ i : Fin 3, transCol (closed_form_inverse_se3 (gtW ij.1) * gtW ij.2) i ^ 2) ∧
    calculate_auc_np (se3_to_relative_pose_error mtqW gtW gtW 2).1
      (se3_to_relative_pose_error mtqW gtW gtW 2).2 30 = 1 :=
  ⟨le_refl 2, mtqW_unit, gtW_trans_bound,
    (c8_auc_range_and_identity [0] [0] 30 mtqW gtW 2 (le_refl 2) mtqW_unit
      gtW_trans_bound).2.2.2⟩

/-- C8, counterexample to the claim as stated: with the predicted pose
set identical to the ground-truth pose set but all poses equal (so every
relative translation is zero), every pairwise translation error is 90
degrees, no error falls in any histogram bin, and the AUC is 0, not 1. -/
theorem c8_identity_poses_counterexample :
    calculate_auc_np (se3_to_relative_pose_error mtqW (fun _ => 1) (fun _ => 1) 2).1
      (se3_to_relative_pose_error mtqW (fun _ => 1) (fun _ => 1) 2).2 30 ≠ 1 := by
  have h0 : calculate_auc_np (se3_to_relative_pose_error mtqW (fun _ => 1) (fun _ => 1) 2).1
      (se3_to_relative_pose_error mtqW (fun _ => 1) (fun _ => 1) 2).2 30 = 0 := by
    apply calculate_auc_np_all_above
    intro x hx
    rcases exists_of_mem_zipWith max _ _ x hx with ⟨a, ha, b, hb, hx⟩
    rcases se3_self_trans_mem mtqW (fun _ => 1) 2 b hb with ⟨ij, -, hb'⟩
    rw [cfinv_one, one_mul, transCol_one, translation_angle_zero_fold] at hb'
    subst hx
    subst hb'
    calc ((30 : ℕ) : ℝ) < 90 := by norm_num
      _ ≤ max a 90 := le_max_right a 90
  rw [h0]
  norm_num

open Classical in
lemma calculate_auc_singleton_five :
    calculate_auc [(5 : ℝ)] [(5 : ℝ)] 30 = ((31 - 5 : ℕ) : ℝ) / (31 : ℝ) := by
  have hme : List.zipWith max [(5 : ℝ)] [(5 : ℝ)] = [(5 : ℝ)] := by
    simp
  rw [calculate_auc_eq]
  refine mean_cumsum_delta 31 5 (by norm_num) _ ?_
  intro j hj
  rw [hme, countIf_singleton]
  simp only [List.length_cons, List.length_nil, Nat.cast_one]
  by_cases hj5 : j = 5
  · subst hj5
    rw [if_pos ?_, if_pos rfl]
    · norm_num
    · rw [binHc]
      refine ⟨by norm_num, ?_⟩
      rw [if_neg (by norm_num)]
      norm_num
  · rw [if_neg ?_, if_neg hj5]
    · norm_num
    · rw [binHc]
      rintro ⟨h1, h2⟩
      by_cases hl : j + 1 = 31
      · rw [if_pos hl] at h2
        have h30 : j = 30 := by omega
        subst h30
        norm_num at h1
      · rw [if_neg hl] at h2
        rw [show ((30 : ℕ) : ℝ) - 0 = 30 by norm_num] at h1 h2
        rw [show ((31 : ℕ) : ℝ) = 31 by norm_num] at h1 h2
        rw [zero_add] at h1 h2
        have hj6 : (j : ℝ) < 6 := by nlinarith
        have hj4 : (4 : ℝ) < (j : ℝ) := by nlinarith
        have hj6' : j < 6 := by exact_mod_cast hj6
        have hj4' : 4 < j := by exact_mod_cast hj4
        omega

open Classical in
lemma calculate_auc_np_singleton_five :
    calculate_auc_np [(5 : ℝ)] [(5 : ℝ)] 30 = ((30 - 5 : ℕ) : ℝ) / (30 : ℝ) := by
  have hme : List.zipWith max [(5 : ℝ)] [(5 : ℝ)] = [(5 : ℝ)] := by
    simp
  rw [calculate_auc_np_eq]
  refine mean_cumsum_delta 30 5 (by norm_num) _ ?_
  intro j hj
  rw [hme, countIf_singleton]
  simp only [List.length_cons, List.length_nil, Nat.cast_one]
  by_cases hj5 : j = 5
  · subst hj5
    rw [if_pos ?_, if_pos rfl]
    · norm_num
    · rw [binNp]
      refine ⟨by norm_num, ?_⟩
      rw [if_neg (by norm_num)]
      norm_num
  · rw [if_neg ?_, if_neg hj5]
    · norm_num
    · rw [binNp]
      rintro ⟨h1, h2⟩
      have hj5r : (j : ℝ) ≤ 5 := h1
      have hj5' : j ≤ 5 := by exact_mod_cast hj5r
      by_cases hl : j + 1 = 30
      · omega
      · rw [if_neg hl] at h2
        have : (5 : ℝ) < (j : ℝ) + 1 := h2
        have : 5 < j + 1 := by exact_mod_cast this
        omega

/-- C10, counterexample: the torch implementation (`torch.histc` with 31
bins of width 30/31) and the numpy implementation (30 unit bins) give
different AUC values on the single error pair (5, 5): 26/31 versus
25/30. -/
theorem c10_auc_counterexample :
    calculate_auc [(5 : ℝ)] [(5 : ℝ)] 30 ≠ calculate_auc_np [(5 : ℝ)] [(5 : ℝ)] 30 := by
  rw [calculate_auc_singleton_five, calculate_auc_np_singleton_five]
  norm_num

open Classical in
/-- C10 (amended): the two AUC implementations disagree in general
(their bin widths differ: `torch.histc` uses `max_threshold + 1` bins of
width `max_threshold / (max_threshold + 1)` over the same range covered
by `np.histogram`'s unit-width bins), but they agree — both returning
`1` — whenever every per-pair error is zero (and the input is a
non-empty pair of arrays with a positive threshold). -/
theorem c10_auc_agree_on_zero_errors (r t : List ℝ) (m : ℕ) (hm : 0 < m)
    (hne : (List.zipWith max r t).length ≠ 0)
    (hzero : ∀ x ∈ List.zipWith max r t, x = 0) :
    calculate_auc r t m = calculate_auc_np r t m := by
  have hnp : calculate_auc_np r t m = 1 :=
    calculate_auc_np_all_first_bin r t m hm hne
      (fun x hx => by rw [hzero x hx]; norm_num)
  have hw : (0 : ℝ) < ((m : ℕ) : ℝ) / ((m + 1 : ℕ) : ℝ) := by
    apply div_pos
    · exact_mod_cast hm
    · exact_mod_cast Nat.succ_pos m
  have htc : calculate_auc r t m = 1 := by
    rw [calculate_auc_eq]
    have hg : ∀ j < m + 1,
        (countIf (List.zipWith max r t) (binHc (m + 1) 0 m j) : ℝ) /
          ((List.zipWith max r t).length : ℝ) = if j = 0 then 1 else 0 := by
      intro j hj
      by_cases hj0 : j = 0
      · subst hj0
        rw [if_pos rfl, countIf_all (binHc (m + 1) 0 m 0) _ ?_]
        · exact div_self (by exact_mod_cast hne)
        · intro x hx
          rw [hzero x hx, binHc]
          refine ⟨by norm_num, ?_⟩
          rw [if_neg (by omega)]
          have hw2 := hw
          push_cast at hw2 ⊢
          simp only [sub_zero, zero_add, one_mul]
          exact hw2
      · rw [if_neg hj0, countIf_none (binHc (m + 1) 0 m j) _ ?_, Nat.cast_zero, zero_div]
        intro x hx
        rw [hzero x hx, binHc]
        rintro ⟨h1, -⟩
        have hj1 : (1 : ℝ) ≤ (j : ℝ) := by
          exact_mod_cast Nat.one_le_iff_ne_zero.mpr hj0
        have hw2 := hw
        push_cast at hw2 h1
        simp only [sub_zero, zero_add] at h1
        have hpos : (0 : ℝ) < (j : ℝ) * ((m : ℝ) / ((m : ℝ) + 1)) :=
          mul_pos (lt_of_lt_of_le zero_lt_one hj1) hw2
        linarith
    rw [mean_cumsum_delta (m + 1) 0 (by omega) _ hg, Nat.sub_zero]
    exact div_self (by exact_mod_cast (Nat.succ_pos m).ne')
  rw [htc, hnp]

theorem c10_auc_agree_on_zero_errors_witness :
    0 < 30 ∧ (List.zipWith max [(0 : ℝ)] [(0 : ℝ)]).length ≠ 0 ∧
    calculate_auc [(0 : ℝ)] [(0 : ℝ)] 30 = calculate_auc_np [(0 : ℝ)] [(0 : ℝ)] 30 :=
  ⟨by norm_num, by simp,
    c10_auc_agree_on_zero_errors [(0 : ℝ)] [(0 : ℝ)] 30 (by norm_num) (by simp)
      (by simp)⟩
